import Mathlib

/-!
# jean: credential extraction and usage display

A shallow embedding of `internal/auth/cookie.go`, `internal/tui/model.go` and
`cmd/menubar/main.go`.

Conventions of the embedding.

* A Go `[]byte` and a Go `string` are both sequences of bytes: `List Byte`.
* A Go function returning `(T, error)` returns an `Outcome T`:
  `value v` stands for `return v, nil`, `fail e` for `return <zero>, e`, and
  `panic` for a run-time panic (slice out of range, negative repeat count).
* Library code that is not part of the repository (PBKDF2, the AES block
  transformation, the clock, the database, the keychain command) is a
  parameter of the definitions that call it.
-/

namespace Jean

/-! ## Bytes and errors -/

/-- A byte. -/
abbrev Byte := Fin 256

/-- The bytes of an ASCII character. -/
def byteOf (c : Char) : Byte := Fin.ofNat c.toNat

/-- The bytes of an ASCII string literal. -/
def bytesOf (s : String) : List Byte := s.toList.map byteOf

/-- Go `error` values built in `cookie.go`.

* `errorf m` is `fmt.Errorf(m)` with no wrapped error;
* `errorfBytes m b` is `fmt.Errorf(m + ": %s", string(b))`;
* `wrapf m e` is `fmt.Errorf(m + ": %w", e)`;
* `keySize n` is `aes.KeySizeError(n)`;
* `foreign d` is an error produced outside the repository (os, sql, exec). -/
inductive GoError where
  | errorf (msg : String)
  | errorfBytes (msg : String) (arg : List Byte)
  | wrapf (msg : String) (inner : GoError)
  | keySize (n : Nat)
  | foreign (desc : String)
  deriving DecidableEq, Repr

/-- Result of running a Go function of result type `(T, error)`. -/
inductive Outcome (α : Type) where
  | value (v : α)
  | fail (e : GoError)
  | panic (what : String)
  deriving DecidableEq, Repr

/-! ## `internal/auth/cookie.go`: constants -/

/-- `chromiumSalt`. -/
def chromiumSalt : List Byte := bytesOf "saltysalt"

/-- `chromiumIterations`. -/
def chromiumIterations : Nat := 1003

/-- `chromiumKeyLength`. -/
def chromiumKeyLength : Nat := 16

/-- `aes.BlockSize`. -/
def blockSize : Nat := 16

/-- The version tag `"v10"`. -/
def versionTag : List Byte := bytesOf "v10"

/-- The initialisation vector `[]byte("                ")`: 16 spaces. -/
def chromiumIV : List Byte := bytesOf "                "

/-! ## Library primitives -/

/-- The cryptographic library functions called by `decryptChromiumCookie`,
with the facts about them that the Go documentation states.

* `pbkdf2Key pw salt iter keyLen` is `pbkdf2.Key(pw, salt, iter, keyLen, sha1.New)`,
  which returns a key of `keyLen` bytes;
* `blockEncrypt key b` / `blockDecrypt key b` are the AES block transformation
  of `cipher.Block` on one 16-byte block, for a 16-byte key: they return a
  16-byte block and decryption inverts encryption. -/
structure Primitives where
  pbkdf2Key : List Byte → List Byte → Nat → Nat → List Byte
  blockEncrypt : List Byte → List Byte → List Byte
  blockDecrypt : List Byte → List Byte → List Byte
  pbkdf2Key_length : ∀ pw salt iter keyLen, (pbkdf2Key pw salt iter keyLen).length = keyLen
  blockEncrypt_length : ∀ key b, key.length = 16 → b.length = 16 →
    (blockEncrypt key b).length = 16
  blockDecrypt_length : ∀ key b, key.length = 16 → b.length = 16 →
    (blockDecrypt key b).length = 16
  blockDecrypt_blockEncrypt : ∀ key b, key.length = 16 → b.length = 16 →
    blockDecrypt key (blockEncrypt key b) = b

/-- `aes.NewCipher(key)`: accepts keys of 16, 24 or 32 bytes, otherwise
returns `KeySizeError`. The value returned on success is the key itself, from
which the block transformation is taken. -/
def aesNewCipher (key : List Byte) : Except GoError (List Byte) :=
  if key.length = 16 ∨ key.length = 24 ∨ key.length = 32 then .ok key
  else .error (.keySize key.length)

/-- Bytewise exclusive or of two blocks. -/
def xorBytes (a b : List Byte) : List Byte := List.zipWith (· ^^^ ·) a b

/-- The loop of `cipher.NewCBCDecrypter(block, iv).CryptBlocks(dst, src)` over
`n` blocks: each plaintext block is the decrypted ciphertext block, xored with
the previous ciphertext block (the IV for the first). -/
def cbcDecryptBlocks (dec : List Byte → List Byte) : Nat → List Byte → List Byte → List Byte
  | 0, _, _ => []
  | n + 1, prev, src =>
    let c := src.take blockSize
    xorBytes (dec c) prev ++ cbcDecryptBlocks dec n c (src.drop blockSize)

/-- `CryptBlocks` of a CBC decrypter; panics when `src` is not a whole number
of blocks. `dst` has the length of `src`. -/
def cbcDecrypt (dec : List Byte → List Byte) (iv src : List Byte) : Option (List Byte) :=
  if src.length % blockSize ≠ 0 then none
  else some (cbcDecryptBlocks dec (src.length / blockSize) iv src)

/-- Lines 147-152 of `cookie.go`: the padding strip.
`decrypted[:len(decrypted)-padding]` panics when the bound is negative. -/
def stripPadding (decrypted : List Byte) : Option (List Byte) :=
  if decrypted.length > 0 then
    let padding : Nat := (decrypted.getD (decrypted.length - 1) 0).val
    if padding > 0 ∧ padding ≤ 16 then
      if padding ≤ decrypted.length then some (decrypted.take (decrypted.length - padding))
      else none
    else some decrypted
  else some decrypted

/-- `decryptChromiumCookie(encryptedValue, keychainPassword)`. -/
def decryptChromiumCookie (P : Primitives) (encryptedValue keychainPassword : List Byte) :
    Outcome (List Byte) :=
  if encryptedValue.length < 3 then
    .fail (.errorf "encrypted value too short")
  else if encryptedValue.take 3 ≠ versionTag then
    .fail (.errorfBytes "unexpected encryption version" (encryptedValue.take 3))
  else
    let data := encryptedValue.drop 3
    if data.length % 16 ≠ 0 then
      .fail (.errorf "data length not multiple of block size")
    else
      let key := P.pbkdf2Key keychainPassword chromiumSalt chromiumIterations chromiumKeyLength
      match aesNewCipher key with
      | .error err => .fail err
      | .ok block =>
        match cbcDecrypt (P.blockDecrypt block) chromiumIV data with
        | none => .panic "crypto/cipher: input not full blocks"
        | some decrypted =>
          match stripPadding decrypted with
          | none => .panic "slice bounds out of range"
          | some plain => .value plain

/-- The encryption side of the round trip, as the store writes a value:
CBC encryption over `n` blocks, each ciphertext block being the encryption of
the plaintext block xored with the previous ciphertext block. -/
def cbcEncryptBlocks (enc : List Byte → List Byte) : Nat → List Byte → List Byte → List Byte
  | 0, _, _ => []
  | n + 1, prev, src =>
    let c := enc (xorBytes (src.take blockSize) prev)
    c ++ cbcEncryptBlocks enc n c (src.drop blockSize)

/-- The stored value for plaintext `p` (a whole number of blocks): `"v10"`
followed by the AES-128-CBC encryption of `p` under the key derived from the
passphrase and the fixed IV. -/
def encryptChromiumCookie (P : Primitives) (p keychainPassword : List Byte) : List Byte :=
  let key := P.pbkdf2Key keychainPassword chromiumSalt chromiumIterations chromiumKeyLength
  versionTag ++ cbcEncryptBlocks (P.blockEncrypt key) (p.length / blockSize) chromiumIV p

/-- The key derived in `decryptChromiumCookie`. -/
def derivedKey (P : Primitives) (keychainPassword : List Byte) : List Byte :=
  P.pbkdf2Key keychainPassword chromiumSalt chromiumIterations chromiumKeyLength

/-- The buffer `decrypted` after `mode.CryptBlocks(decrypted, data)`. -/
def decryptedBuffer (P : Primitives) (data keychainPassword : List Byte) : List Byte :=
  cbcDecryptBlocks (P.blockDecrypt (derivedKey P keychainPassword))
    (data.length / blockSize) chromiumIV data

/-- A concrete instance of the primitives, used to evaluate the definitions:
the key is the passphrase cut or zero-filled to the key length, and the block
transformation xors every byte with the first key byte. -/
def toyPrimitives : Primitives where
  pbkdf2Key := fun pw _ _ keyLen => (pw ++ List.replicate keyLen 0).take keyLen
  blockEncrypt := fun key b => b.map (· ^^^ key.headD 0)
  blockDecrypt := fun key b => b.map (· ^^^ key.headD 0)
  pbkdf2Key_length := by intro pw salt iter keyLen; simp
  blockEncrypt_length := by intro key b _ h; simpa using h
  blockDecrypt_length := by intro key b _ h; simpa using h
  blockDecrypt_blockEncrypt := by
    intro key b _ _
    simp only [List.map_map]
    conv_rhs => rw [← List.map_id b]
    apply List.map_congr_left
    intro a _
    apply Fin.ext
    have hv : ∀ x y : Byte, (x ^^^ y).val = x.val ^^^ y.val := by
      intro x y
      have hlt : x.val ^^^ y.val < 2 ^ 8 := Nat.xor_lt_two_pow x.isLt y.isLt
      exact Nat.mod_eq_of_lt hlt
    show ((a ^^^ key.headD 0) ^^^ key.headD 0).val = a.val
    rw [hv, hv, Nat.xor_assoc, Nat.xor_self, Nat.xor_zero]

/-! ## `regexp`: the fragment used by `cookie.go` -/

/-- A character class: a list of inclusive byte ranges. A literal character
is the class with the single range from that character to itself. -/
abbrev CharClass := List (Byte × Byte)

/-- Membership of a byte in a character class. -/
def CharClass.test (cls : CharClass) (b : Byte) : Bool :=
  cls.any (fun r => decide (r.1 ≤ b) && decide (b ≤ r.2))

/-- One item of a pattern: a class matched once, or a class under the greedy
`+`. -/
inductive Item where
  | one (cls : CharClass)
  | oneOrMore (cls : CharClass)
  deriving DecidableEq, Repr

/-- A compiled pattern: the concatenation of its items. The counted
repetition `x{n}` is `n` copies of `x`. -/
abbrev Regexp := List Item

/-- The class of a literal character. -/
def litClass (c : Char) : CharClass := [(byteOf c, byteOf c)]

/-- A literal string as a pattern. -/
def literal (s : String) : Regexp := s.toList.map (fun c => Item.one (litClass c))

/-- The class `[0-9a-f]`. -/
def hexClass : CharClass := [(byteOf '0', byteOf '9'), (byteOf 'a', byteOf 'f')]

/-- The class `[A-Za-z0-9_-]`. -/
def tokenClass : CharClass :=
  [(byteOf 'A', byteOf 'Z'), (byteOf 'a', byteOf 'z'), (byteOf '0', byteOf '9'),
   (byteOf '_', byteOf '_'), (byteOf '-', byteOf '-')]

/-- The pattern `[0-9a-f]{n}`. -/
def hexRun (n : Nat) : Regexp := List.replicate n (Item.one hexClass)

/-- `uuidRegex`:
`[0-9a-f]{8}-[0-9a-f]{4}-[0-9a-f]{4}-[0-9a-f]{4}-[0-9a-f]{12}`. -/
def uuidRegex : Regexp :=
  hexRun 8 ++ literal "-" ++ hexRun 4 ++ literal "-" ++ hexRun 4 ++ literal "-" ++
    hexRun 4 ++ literal "-" ++ hexRun 12

/-- `sessionKeyRegex`: `sk-ant-sid[A-Za-z0-9_-]+`. -/
def sessionKeyRegex : Regexp := literal "sk-ant-sid" ++ [Item.oneOrMore tokenClass]

/-- The greedy `+` with backtracking: consume bytes of the class, preferring
to consume more, and hand the rest to the continuation `k`. -/
def greedy (cls : CharClass) (k : List Byte → Option (List Byte)) :
    List Byte → Option (List Byte)
  | [] => none
  | b :: s =>
    if cls.test b then
      match greedy cls k s with
      | some w => some (b :: w)
      | none => (k s).map (b :: ·)
    else none

/-- The match of the pattern anchored at the start of the input, in the
preference order of `regexp` (leftmost-first): the matched text, if any. -/
def matchPrefix : Regexp → List Byte → Option (List Byte)
  | [], _ => some []
  | Item.one _ :: _, [] => none
  | Item.one cls :: rest, b :: s =>
    if cls.test b then (matchPrefix rest s).map (b :: ·) else none
  | Item.oneOrMore cls :: rest, s => greedy cls (matchPrefix rest) s

/-- `Regexp.FindStringIndex` with the text: the start offset and the text of
the leftmost match. -/
def findMatch (re : Regexp) : List Byte → Option (Nat × List Byte)
  | [] => (matchPrefix re []).map (fun w => (0, w))
  | b :: s =>
    match matchPrefix re (b :: s) with
    | some w => some (0, w)
    | none => (findMatch re s).map (fun r => (r.1 + 1, r.2))

/-- `Regexp.FindString`: the text of the leftmost match, or the empty string
when there is no match. -/
def FindString (re : Regexp) (s : List Byte) : List Byte :=
  match findMatch re s with
  | some r => r.2
  | none => []

/-- The language of a pattern: `Matches re w` when the whole of `w` matches
`re`. -/
def Matches : Regexp → List Byte → Prop
  | [], w => w = []
  | Item.one cls :: rest, w => ∃ b v, w = b :: v ∧ cls.test b = true ∧ Matches rest v
  | Item.oneOrMore cls :: rest, w =>
    ∃ u v, w = u ++ v ∧ u ≠ [] ∧ (∀ b ∈ u, cls.test b = true) ∧ Matches rest v

/-- The greedy `+` occurs in the pattern only as its last item. -/
def plusOnlyLast : Regexp → Bool
  | [] => true
  | Item.one _ :: rest => plusOnlyLast rest
  | [Item.oneOrMore _] => true
  | Item.oneOrMore _ :: _ :: _ => false

/-- Every item of the pattern is a class matched once. -/
def fixedWidth : Regexp → Bool
  | [] => true
  | Item.one _ :: rest => fixedWidth rest
  | Item.oneOrMore _ :: _ => false

/-! ## `internal/auth/cookie.go`: credentials -/

/-- `Credentials`. -/
structure Credentials where
  SessionKey : List Byte
  OrgID : List Byte
  deriving DecidableEq, Repr

/-- The open cookie database: the result of the query
`SELECT encrypted_value FROM cookies WHERE name = ? AND host_key LIKE '%claude.ai'`
scanned into a byte slice, for each cookie name. -/
structure DB where
  queryRow : String → Except GoError (List Byte)

/-- The process environment `GetCredentials` runs in.

* `userHomeDir` is the result of `os.UserHomeDir()`;
* `securityCmd k` is the result of the `k`-th run (from 0) of
  `security find-generic-password -s "Claude Safe Storage" -a "Claude Key" -w`;
* `trimSpace` is `strings.TrimSpace`;
* `pathJoin` is `filepath.Join`;
* `sqlOpen dsn` is the result of `sql.Open("sqlite3", dsn)`. -/
structure World where
  userHomeDir : Except GoError String
  securityCmd : Nat → Except GoError (List Byte)
  trimSpace : List Byte → List Byte
  pathJoin : List String → String
  sqlOpen : String → Except GoError DB

/-- The package variables `keychainCache`, `keychainCacheOnce` and
`keychainCacheErr`, with a count of the runs of the `security` command. -/
structure KeychainState where
  keychainCache : List Byte
  onceDone : Bool
  keychainCacheErr : Option GoError
  runs : Nat
  deriving DecidableEq, Repr

/-- The package variables at process start. -/
def KeychainState.init : KeychainState :=
  { keychainCache := [], onceDone := false, keychainCacheErr := none, runs := 0 }

/-- `getKeychainPasswordCached()`: the returned pair and the state after the
call. `keychainCacheOnce.Do(f)` runs `f` when the once has not fired, and
marks it fired. -/
def getKeychainPasswordCached (W : World) (st : KeychainState) :
    (List Byte × Option GoError) × KeychainState :=
  let st1 : KeychainState :=
    if st.onceDone then st
    else
      match W.securityCmd st.runs with
      | .error err =>
        { st with
          onceDone := true
          runs := st.runs + 1
          keychainCacheErr := some (.wrapf
            "failed to get keychain password (click 'Always Allow' when prompted)" err) }
      | .ok output =>
        { st with
          onceDone := true
          runs := st.runs + 1
          keychainCache := W.trimSpace output }
  ((st1.keychainCache, st1.keychainCacheErr), st1)

/-- A sequence of `n` calls of `getKeychainPasswordCached`: the returned pairs
in call order, and the final state. -/
def keychainCalls (W : World) : Nat → KeychainState →
    List (List Byte × Option GoError) × KeychainState
  | 0, st => ([], st)
  | n + 1, st =>
    let r := getKeychainPasswordCached W st
    let rs := keychainCalls W n r.2
    (r.1 :: rs.1, rs.2)

/-- `getCookieValue(db, cookieName, keychainPassword, pattern)`. -/
def getCookieValue (P : Primitives) (db : DB) (cookieName : String)
    (keychainPassword : List Byte) (pattern : Regexp) : Outcome (List Byte) :=
  match db.queryRow cookieName with
  | .error err => .fail (.wrapf ("failed to read cookie " ++ cookieName) err)
  | .ok encryptedValue =>
    match decryptChromiumCookie P encryptedValue keychainPassword with
    | .fail err => .fail (.wrapf ("failed to decrypt cookie " ++ cookieName) err)
    | .panic what => .panic what
    | .value decrypted =>
      let found := FindString pattern decrypted
      if found = [] then
        .fail (.errorf ("pattern not found in decrypted " ++ cookieName))
      else .value found

/-- `GetCredentials()`, with the package state after the call. -/
def GetCredentials (P : Primitives) (W : World) (st : KeychainState) :
    Outcome Credentials × KeychainState :=
  match W.userHomeDir with
  | .error err => (.fail (.wrapf "failed to get home directory" err), st)
  | .ok homeDir =>
    let cookiesPath := W.pathJoin [homeDir, "Library", "Application Support", "Claude", "Cookies"]
    let r := getKeychainPasswordCached W st
    match r.1.2 with
    | some err => (.fail (.wrapf "failed to get keychain password" err), r.2)
    | none =>
      let keychainPassword := r.1.1
      match W.sqlOpen (cookiesPath ++ "?mode=ro") with
      | .error err => (.fail (.wrapf "failed to open cookies database" err), r.2)
      | .ok db =>
        match getCookieValue P db "sessionKey" keychainPassword sessionKeyRegex with
        | .fail err => (.fail (.wrapf "failed to get session key" err), r.2)
        | .panic what => (.panic what, r.2)
        | .value sessionKey =>
          match getCookieValue P db "lastActiveOrg" keychainPassword uuidRegex with
          | .fail err => (.fail (.wrapf "failed to get org ID" err), r.2)
          | .panic what => (.panic what, r.2)
          | .value orgID => (.value { SessionKey := sessionKey, OrgID := orgID }, r.2)

/-- The steps of `GetCredentials` all succeed, yielding the session key `sk`
and the organization id `org`. -/
def AllStepsSucceed (P : Primitives) (W : World) (st : KeychainState)
    (sk org : List Byte) : Prop :=
  ∃ home db, W.userHomeDir = .ok home ∧
    (getKeychainPasswordCached W st).1.2 = none ∧
    W.sqlOpen (W.pathJoin [home, "Library", "Application Support", "Claude", "Cookies"]
      ++ "?mode=ro") = .ok db ∧
    getCookieValue P db "sessionKey" (getKeychainPasswordCached W st).1.1 sessionKeyRegex
      = .value sk ∧
    getCookieValue P db "lastActiveOrg" (getKeychainPasswordCached W st).1.1 uuidRegex
      = .value org

/-- The first failing step of `GetCredentials`: its message and the error it
produced. -/
def FirstFailure (P : Primitives) (W : World) (st : KeychainState)
    (step : String) (inner : GoError) : Prop :=
  (step = "failed to get home directory" ∧ W.userHomeDir = .error inner) ∨
  (step = "failed to get keychain password" ∧ (∃ home, W.userHomeDir = .ok home) ∧
    (getKeychainPasswordCached W st).1.2 = some inner) ∨
  (step = "failed to open cookies database" ∧ ∃ home, W.userHomeDir = .ok home ∧
    (getKeychainPasswordCached W st).1.2 = none ∧
    W.sqlOpen (W.pathJoin [home, "Library", "Application Support", "Claude", "Cookies"]
      ++ "?mode=ro") = .error inner) ∨
  (step = "failed to get session key" ∧ ∃ home db, W.userHomeDir = .ok home ∧
    (getKeychainPasswordCached W st).1.2 = none ∧
    W.sqlOpen (W.pathJoin [home, "Library", "Application Support", "Claude", "Cookies"]
      ++ "?mode=ro") = .ok db ∧
    getCookieValue P db "sessionKey" (getKeychainPasswordCached W st).1.1 sessionKeyRegex
      = .fail inner) ∨
  (step = "failed to get org ID" ∧ ∃ home db sk, W.userHomeDir = .ok home ∧
    (getKeychainPasswordCached W st).1.2 = none ∧
    W.sqlOpen (W.pathJoin [home, "Library", "Application Support", "Claude", "Cookies"]
      ++ "?mode=ro") = .ok db ∧
    getCookieValue P db "sessionKey" (getKeychainPasswordCached W st).1.1 sessionKeyRegex
      = .value sk ∧
    getCookieValue P db "lastActiveOrg" (getKeychainPasswordCached W st).1.1 uuidRegex
      = .fail inner)

/-! ## Concrete inputs used to evaluate the definitions -/

/-- A passphrase. -/
def samplePassword : List Byte := bytesOf "pw"

/-- A decrypted session cookie: one block holding a session token. -/
def sampleSessionPlain : List Byte := bytesOf "sk-ant-sid01-abc"

/-- A decrypted organization cookie: a UUID followed by twelve bytes of
padding `0x0c`, three blocks in all. -/
def sampleOrgPlain : List Byte :=
  bytesOf "0123456a-89ab-cdef-0123-456789abcdef" ++ List.replicate 12 12

/-- The payload of the stored organization cookie: the encryption of
`sampleOrgPlain` without the version tag. -/
def sampleOrgPayload : List Byte :=
  (encryptChromiumCookie toyPrimitives sampleOrgPlain samplePassword).drop 3

/-- A decrypted session cookie of two blocks in which text precedes and
follows the session token. -/
def sampleTokenPlain : List Byte := bytesOf "a=sk-ant-sid01-abc_DEF; b=sk-ant"

/-- A cookie database whose session cookie is `sampleTokenPlain`, encrypted
under `samplePassword`. -/
def tokenDB : DB where
  queryRow := fun cookieName =>
    if cookieName = "sessionKey" then
      .ok (encryptChromiumCookie toyPrimitives sampleTokenPlain samplePassword)
    else .error (.foreign "sql: no rows in result set")

/-- A cookie database holding the two cookies, encrypted under
`samplePassword`. -/
def sampleDB : DB where
  queryRow := fun cookieName =>
    if cookieName = "sessionKey" then
      .ok (encryptChromiumCookie toyPrimitives sampleSessionPlain samplePassword)
    else if cookieName = "lastActiveOrg" then
      .ok (encryptChromiumCookie toyPrimitives sampleOrgPlain samplePassword)
    else .error (.foreign "sql: no rows in result set")

/-- An environment in which every step of `GetCredentials` succeeds. -/
def sampleWorld : World where
  userHomeDir := .ok "/Users/u"
  securityCmd := fun _ => .ok (bytesOf "pw\n")
  trimSpace := fun b => b.filter (fun x => x ≠ byteOf '\n' && x ≠ byteOf ' ')
  pathJoin := fun parts => String.intercalate "/" parts
  sqlOpen := fun _ => .ok sampleDB

/-- An environment in which the keychain command fails. -/
def deniedWorld : World :=
  { sampleWorld with securityCmd := fun _ => .error (.foreign "exit status 128") }

/-! ## `internal/api/usage.go` and the clock -/

/-! A `time.Time` is the integer count of nanoseconds since the zero time
(January 1, year 1, UTC); a `time.Duration` is a signed 64-bit count of
nanoseconds. Both are values of `Int`. -/

/-- `time.Second`. -/
def Second : Int := 1000000000

/-- `time.Minute`. -/
def Minute : Int := 60 * Second

/-- `time.Hour`. -/
def Hour : Int := 60 * Minute

/-- The smallest `Duration`. -/
def minDuration : Int := -(2 ^ 63)

/-- The largest `Duration`. -/
def maxDuration : Int := 2 ^ 63 - 1

/-- `t.Sub(u)`: the difference, or the smallest or largest `Duration` when the
difference does not fit. -/
def timeSub (t u : Int) : Int :=
  if minDuration ≤ t - u ∧ t - u ≤ maxDuration then t - u
  else if t < u then minDuration
  else maxDuration

/-- The conversion `int(x)` of a `float64`: truncation toward zero. A
`float64` is represented by the rational number it denotes. The model is exact
where the floating-point operations are exact and the result is in the range
of `int`, as at the inputs it is evaluated on here; the rounding of inexact
operations and the platform-dependent conversion of values out of the `int`
range are outside the model. -/
def goInt (x : ℚ) : Int := Int.tdiv x.num x.den

/-- `int(d.Minutes())` for a duration `d`: the whole minutes of `d`, truncated
toward zero. -/
def wholeMinutes (d : Int) : Int := Int.tdiv d Minute

/-- `int(d.Hours())` for a duration `d`: the whole hours of `d`, truncated
toward zero. -/
def wholeHours (d : Int) : Int := Int.tdiv d Hour

/-- `UsageLimit`. -/
structure UsageLimit where
  Utilization : ℚ
  ResetsAt : Int
  deriving DecidableEq

/-- `UsageResponse`. -/
structure UsageResponse where
  FiveHour : Option UsageLimit
  SevenDay : Option UsageLimit
  SevenDayOAuthApps : Option UsageLimit
  SevenDayOpus : Option UsageLimit
  SevenDaySonnet : Option UsageLimit
  IguanaNecktie : Option UsageLimit
  ExtraUsage : Option UsageLimit
  deriving DecidableEq

/-- `api.Client` without its HTTP client. -/
structure Client where
  sessionKey : List Byte
  orgID : List Byte
  deriving DecidableEq

/-- `strings.Repeat(s, count)` on a string of runes: panics on a negative
count. -/
def stringsRepeat (s : List Char) (count : Int) : Option (List Char) :=
  if count < 0 then none else some (List.replicate count.toNat s).flatten

/-- The text after `"Resets"`, by the branch of `formatResetTime` that
produces it, with the integers printed by `%d`. -/
inductive ResetLabel where
  | immediate
  | minutes (m : Int)
  | hoursMinutes (h m : Int)
  | hours (h : Int)
  | clock (t : Int)
  deriving DecidableEq, Repr

/-- The branch `formatResetTime` takes, in both of its copies. -/
def resetLabel (now t : Int) : ResetLabel :=
  let diff := timeSub t now
  if diff < 0 then .immediate
  else if diff < Hour then .minutes (wholeMinutes diff)
  else if diff < 24 * Hour then
    let hours := wholeHours diff
    let mins := Int.tmod (wholeMinutes diff) 60
    if mins > 0 then .hoursMinutes hours mins else .hours hours
  else .clock t

/-- The integers a label prints. -/
def ResetLabel.numbers : ResetLabel → List Int
  | .immediate => []
  | .minutes m => [m]
  | .hoursMinutes h m => [h, m]
  | .hours h => [h]
  | .clock _ => []

/-- Formatting done by library code: `t.Format("Mon 3:04 PM")`, the verb
`%.0f`, and the text of `time.Since(t).Round(time.Second)`. -/
structure Formats where
  clock : Int → String
  percent : ℚ → String
  ago : Int → String

/-! ## `cmd/menubar/main.go` -/

namespace Menubar

/-- `formatResetTime(t)`, with `time.Now()` as a parameter. -/
def formatResetTime (F : Formats) (now t : Int) : String :=
  let diff := timeSub t now
  if diff < 0 then "now"
  else if diff < Hour then "in " ++ toString (wholeMinutes diff) ++ " min"
  else if diff < 24 * Hour then
    let hours := wholeHours diff
    let mins := Int.tmod (wholeMinutes diff) 60
    if mins > 0 then "in " ++ toString hours ++ "h " ++ toString mins ++ "m"
    else "in " ++ toString hours ++ "h"
  else F.clock t

/-- The text `formatResetTime` prints for a label. -/
def renderLabel (F : Formats) : ResetLabel → String
  | .immediate => "now"
  | .minutes m => "in " ++ toString m ++ " min"
  | .hoursMinutes h m => "in " ++ toString h ++ "h " ++ toString m ++ "m"
  | .hours h => "in " ++ toString h ++ "h"
  | .clock t => F.clock t

/-- The value of `filled` in `makeProgressBar` when the loop starts. -/
def filledCount (percent : ℚ) (width : Int) : Int :=
  let filled := goInt (percent / 100 * (width : ℚ))
  let filled := if filled > width then width else filled
  if filled = 0 ∧ percent > 0 then 1 else filled

/-- `makeProgressBar(percent, width)`: the runes of the bar. The loop runs
`i` from 0 while `i < width`. -/
def makeProgressBar (percent : ℚ) (width : Int) : List Char :=
  (List.range width.toNat).map
    (fun (i : Nat) => if Int.ofNat i < filledCount percent width then '▰' else '▱')

/-- The package variable `usage` and the title of the menu state. -/
structure State where
  usage : Option UsageResponse
  title : String

/-- `updateMenuBar()`. -/
def updateMenuBar (F : Formats) (s : State) : State :=
  match s.usage with
  | none => s
  | some u =>
    match u.FiveHour with
    | none => s
    | some limit =>
      { s with title := "C " ++ String.mk (makeProgressBar limit.Utilization 5) ++ " "
          ++ F.percent limit.Utilization ++ "%" }

/-- `refreshUsage()`, with the result of `client.GetUsage()` as a parameter. -/
def refreshUsage (F : Formats) (getUsage : Except GoError UsageResponse) (s : State) : State :=
  match getUsage with
  | .error _ => { s with title := "⚠️" }
  | .ok newUsage => updateMenuBar F { s with usage := some newUsage }

end Menubar

/-! ## `internal/tui/model.go` -/

namespace Tui

/-- `formatResetTime(t)`, with `time.Now()` as a parameter. -/
def formatResetTime (F : Formats) (now t : Int) : String :=
  let diff := timeSub t now
  if diff < 0 then "Resetting..."
  else if diff < Hour then "Resets in " ++ toString (wholeMinutes diff) ++ " min"
  else if diff < 24 * Hour then
    let hours := wholeHours diff
    let mins := Int.tmod (wholeMinutes diff) 60
    if mins > 0 then "Resets in " ++ toString hours ++ "h " ++ toString mins ++ "m"
    else "Resets in " ++ toString hours ++ "h"
  else "Resets " ++ F.clock t

/-- The text `formatResetTime` prints for a label. -/
def renderLabel (F : Formats) : ResetLabel → String
  | .immediate => "Resetting..."
  | .minutes m => "Resets in " ++ toString m ++ " min"
  | .hoursMinutes h m => "Resets in " ++ toString h ++ "h " ++ toString m ++ "m"
  | .hours h => "Resets in " ++ toString h ++ "h"
  | .clock t => "Resets " ++ F.clock t

/-- The state of the `bubbles` spinner. -/
structure Spinner where
  frame : Nat
  deriving DecidableEq, Repr

/-- The commands `Update` returns. -/
inductive Cmd where
  | none
  | quit
  | fetchUsage
  | tickEvery (d : Int)
  | batch (a b : Cmd)
  | spinnerTick (tag : Nat)
  deriving DecidableEq, Repr

/-- The messages `Update` receives, by the case of its type switch; `other`
is any message no case matches. -/
inductive Msg where
  | key (name : String)
  | windowSize (width height : Int)
  | tick (t : Int)
  | usage (u : Option UsageResponse)
  | err (e : GoError)
  | spinnerTick (tag : Nat)
  | other

/-- What `Update` and `View` take from outside the package: the clock, the
spinner and the formatting verbs. -/
structure Env where
  now : Int
  spinnerUpdate : Spinner → Nat → Spinner × Cmd
  spinnerView : Spinner → String
  formats : Formats

/-- `Model`. -/
structure Model where
  client : Client
  usage : Option UsageResponse
  lastUpdated : Int
  err : Option GoError
  spinner : Spinner
  loading : Bool
  width : Int

/-- `Model.Update(msg)`. -/
def Model.Update (env : Env) (m : Model) (msg : Msg) : Model × Cmd :=
  match msg with
  | .key name =>
    if name = "q" ∨ name = "ctrl+c" then (m, .quit)
    else if name = "r" then ({ m with loading := true }, .fetchUsage)
    else (m, .none)
  | .windowSize width _ => ({ m with width := width }, .none)
  | .tick _ => ({ m with loading := true }, .batch .fetchUsage (.tickEvery (30 * Second)))
  | .usage u =>
    ({ m with usage := u, lastUpdated := env.now, loading := false, err := none }, .none)
  | .err e => ({ m with err := some e, loading := false }, .none)
  | .spinnerTick tag =>
    let r := env.spinnerUpdate m.spinner tag
    ({ m with spinner := r.1 }, r.2)
  | .other => (m, .none)

/-- What `renderUsageRow` writes: the label, the reset text, the filled and
the empty part of the bar, and the percentage text. -/
structure UsageRow where
  label : String
  reset : String
  fill : List Char
  empty : List Char
  percent : String
  deriving DecidableEq

/-- The value of `filled` in `renderUsageRow` when the bar is built. -/
def filledCount (utilization : ℚ) : Int :=
  let barWidth : Int := 40
  let filled := goInt (utilization / 100 * (barWidth : ℚ))
  if filled > barWidth then barWidth else filled

/-- `Model.renderUsageRow(label, limit)`; `none` is a panic of
`strings.Repeat`. -/
def Model.renderUsageRow (env : Env) (label : String) (limit : UsageLimit) : Option UsageRow :=
  let barWidth : Int := 40
  let filled := filledCount limit.Utilization
  match stringsRepeat ['█'] filled with
  | none => none
  | some fill =>
    match stringsRepeat ['░'] (barWidth - filled) with
    | none => none
    | some empty =>
      some { label := label
             reset := formatResetTime env.formats env.now limit.ResetsAt
             fill := fill
             empty := empty
             percent := env.formats.percent limit.Utilization ++ "% used" }

/-- The pieces `View` writes, in order, without styles and line breaks. -/
inductive ViewPart where
  | title (s : String)
  | subtitle (s : String)
  | error (e : GoError)
  | row (r : UsageRow)
  | loading (spinner : String)
  | lastUpdated (ago : String) (spinner : Option String)
  deriving DecidableEq

/-- The row of one usage window in `View`: nothing when the window is absent. -/
def Model.viewRow (env : Env) (label : String) : Option UsageLimit → Option (List ViewPart)
  | none => some []
  | some limit =>
    match Model.renderUsageRow env label limit with
    | none => none
    | some r => some [.row r]

/-- `Model.View()`; `none` is a panic. -/
def Model.View (env : Env) (m : Model) : Option (List ViewPart) :=
  let errPart : List ViewPart :=
    match m.err with
    | some e => [.error e]
    | none => []
  let body : Option (List ViewPart) :=
    match m.usage with
    | some u =>
      match Model.viewRow env "Current session" u.FiveHour with
      | none => none
      | some r1 =>
        match Model.viewRow env "All models" u.SevenDay with
        | none => none
        | some r2 =>
          match Model.viewRow env "Sonnet only" u.SevenDaySonnet with
          | none => none
          | some r3 =>
            some (r1 ++ [.title "Weekly limits", .subtitle "Learn more about usage limits"]
              ++ r2 ++ r3)
    | none => some (if m.loading then [.loading (env.spinnerView m.spinner)] else [])
  let last : List ViewPart :=
    if m.lastUpdated ≠ 0 then
      [.lastUpdated (env.formats.ago (timeSub env.now m.lastUpdated))
        (if m.loading then some (env.spinnerView m.spinner) else none)]
    else []
  match body with
  | none => none
  | some parts =>
    some ([.title "Plan usage limits"] ++ errPart ++ parts ++ last
      ++ [.subtitle "Press 'r' to refresh, 'q' to quit"])

end Tui

/-- Formatting used to evaluate the definitions. -/
def sampleFormats : Formats where
  clock := fun _ => "Mon 3:04 PM"
  percent := fun q => toString (goInt q)
  ago := fun d => toString (Int.tdiv d Second) ++ "s"

/-- An environment of the terminal interface used to evaluate the
definitions. -/
def sampleEnv : Tui.Env where
  now := 1000
  spinnerUpdate := fun s tag => ({ frame := s.frame + 1 }, .spinnerTick tag)
  spinnerView := fun _ => "."
  formats := sampleFormats

/-- A usage limit with a negative utilization. -/
def negativeLimit : UsageLimit := { Utilization := -50, ResetsAt := 0 }

/-- A usage response whose only window is `negativeLimit`, as decoded from a
body whose `five_hour` window has the `utilization` -50. -/
def negativeUsage : UsageResponse :=
  { FiveHour := some negativeLimit, SevenDay := none, SevenDayOAuthApps := none,
    SevenDayOpus := none, SevenDaySonnet := none, IguanaNecktie := none,
    ExtraUsage := none }

/-- A model that has received `negativeUsage`. -/
def negativeModel : Tui.Model :=
  { client := { sessionKey := [], orgID := [] }
    usage := some negativeUsage
    lastUpdated := 1000
    err := none
    spinner := { frame := 0 }
    loading := false
    width := 60 }

/-! # Theorems -/

/-! ## Facts about bytes and blocks -/

theorem byte_xor_val (a b : Byte) : (a ^^^ b).val = a.val ^^^ b.val := by
  have h : a.val ^^^ b.val < 2 ^ 8 := Nat.xor_lt_two_pow a.isLt b.isLt
  show (a.val ^^^ b.val) % 256 = _
  exact Nat.mod_eq_of_lt h

theorem byte_xor_cancel (a b : Byte) : (a ^^^ b) ^^^ b = a := by
  apply Fin.ext
  rw [byte_xor_val, byte_xor_val, Nat.xor_assoc, Nat.xor_self, Nat.xor_zero]

theorem xorBytes_length (a b : List Byte) (h : a.length = b.length) :
    (xorBytes a b).length = a.length := by
  simp [xorBytes, h]

theorem xorBytes_cancel : ∀ (a b : List Byte), a.length = b.length →
    xorBytes (xorBytes a b) b = a
  | [], _, _ => by simp [xorBytes]
  | x :: a, [], h => by simp at h
  | x :: a, y :: b, h => by
    have ih := xorBytes_cancel a b (by simpa using h)
    simp only [xorBytes, List.zipWith_cons_cons] at ih ⊢
    rw [ih, byte_xor_cancel]

theorem derivedKey_length (P : Primitives) (pw : List Byte) : (derivedKey P pw).length = 16 :=
  P.pbkdf2Key_length pw chromiumSalt chromiumIterations chromiumKeyLength

theorem chromiumIV_length : chromiumIV.length = 16 := by decide

theorem versionTag_length : versionTag.length = 3 := by decide

theorem cbcDecryptBlocks_length (dec : List Byte → List Byte)
    (hdec : ∀ b, b.length = 16 → (dec b).length = 16) :
    ∀ (n : Nat) (prev src : List Byte), prev.length = 16 → src.length = 16 * n →
      (cbcDecryptBlocks dec n prev src).length = 16 * n
  | 0, _, _, _, _ => by simp [cbcDecryptBlocks]
  | n + 1, prev, src, hp, hs => by
    have htake : (src.take blockSize).length = 16 := by
      simp only [blockSize, List.length_take]; omega
    have hdrop : (src.drop blockSize).length = 16 * n := by
      simp only [blockSize, List.length_drop]; omega
    have ih := cbcDecryptBlocks_length dec hdec n (src.take blockSize) (src.drop blockSize)
      htake hdrop
    have hx : (xorBytes (dec (src.take blockSize)) prev).length = 16 := by
      rw [xorBytes_length _ _ (by rw [hdec _ htake, hp]), hdec _ htake]
    simp only [cbcDecryptBlocks, List.length_append, ih, hx]
    omega

theorem decryptedBuffer_length (P : Primitives) (data pw : List Byte)
    (h : data.length % 16 = 0) : (decryptedBuffer P data pw).length = data.length := by
  have hk := derivedKey_length P pw
  have := cbcDecryptBlocks_length (P.blockDecrypt (derivedKey P pw))
    (fun b hb => P.blockDecrypt_length _ b hk hb) (data.length / 16) chromiumIV data
    chromiumIV_length (by omega)
  simp only [decryptedBuffer, blockSize, this]
  omega

theorem stripPadding_isSome (d : List Byte) (h : d.length % 16 = 0) :
    ∃ plain, stripPadding d = some plain := by
  simp only [stripPadding]
  split_ifs <;> first
    | exact ⟨_, rfl⟩
    | omega

/-- Past the three guards, `decryptChromiumCookie` returns the padding strip
of the decrypted buffer. -/
theorem decryptChromiumCookie_aligned (P : Primitives) (c pw : List Byte)
    (h3 : ¬ c.length < 3) (hv : c.take 3 = versionTag) (hm : (c.drop 3).length % 16 = 0) :
    ∃ plain, stripPadding (decryptedBuffer P (c.drop 3) pw) = some plain ∧
      decryptChromiumCookie P c pw = .value plain := by
  have hk := derivedKey_length P pw
  obtain ⟨plain, hplain⟩ := stripPadding_isSome (decryptedBuffer P (c.drop 3) pw)
    (by rw [decryptedBuffer_length P _ pw hm]; exact hm)
  refine ⟨plain, hplain, ?_⟩
  have hkey : aesNewCipher (derivedKey P pw) = .ok (derivedKey P pw) := by
    simp [aesNewCipher, hk]
  have hcbc : cbcDecrypt (P.blockDecrypt (derivedKey P pw)) chromiumIV (c.drop 3)
      = some (decryptedBuffer P (c.drop 3) pw) := by
    simp only [cbcDecrypt, blockSize, decryptedBuffer]
    rw [if_neg (by simpa using hm)]
  unfold decryptChromiumCookie
  rw [if_neg h3, if_neg (by simpa using hv), if_neg (by simpa using hm)]
  simp only []
  change (match aesNewCipher (derivedKey P pw) with
    | .error err => Outcome.fail err
    | .ok block => _) = _
  rw [hkey]
  simp only []
  rw [hcbc]
  simp only []
  rw [hplain]

theorem stripPadding_eq (d : List Byte) (h : d.length % 16 = 0) :
    stripPadding d = some (match d.getLast? with
      | none => []
      | some n => if 1 ≤ n.val ∧ n.val ≤ 16 then d.take (d.length - n.val) else d) := by
  rcases List.eq_nil_or_concat d with hd | ⟨front, n, hd⟩
  · subst hd; rfl
  · rw [List.concat_eq_append] at hd
    subst hd
    have hlen : (front ++ [n]).length = front.length + 1 := by simp
    have hlast : (front ++ [n]).getD ((front ++ [n]).length - 1) 0 = n := by
      simp [List.getD_eq_getElem?_getD]
    have hl : (front ++ [n]).getLast? = some n := by simp
    simp only [stripPadding, hlast, hl]
    rw [hlen] at h ⊢
    by_cases hp : 1 ≤ n.val ∧ n.val ≤ 16
    · have hp2 : n.val > 0 ∧ n.val ≤ 16 := ⟨hp.1, hp.2⟩
      rw [if_pos (by omega), if_pos hp2, if_pos (by omega), if_pos hp]
    · have hp2 : ¬ (n.val > 0 ∧ n.val ≤ 16) := fun hq => hp ⟨hq.1, hq.2⟩
      rw [if_pos (by omega), if_neg hp2, if_neg hp]

theorem cbcEncryptBlocks_length (enc : List Byte → List Byte)
    (henc : ∀ b, b.length = 16 → (enc b).length = 16) :
    ∀ (n : Nat) (prev src : List Byte), prev.length = 16 → src.length = 16 * n →
      (cbcEncryptBlocks enc n prev src).length = 16 * n
  | 0, _, _, _, _ => by simp [cbcEncryptBlocks]
  | n + 1, prev, src, hp, hs => by
    have htake : (src.take blockSize).length = 16 := by
      simp only [blockSize, List.length_take]; omega
    have hdrop : (src.drop blockSize).length = 16 * n := by
      simp only [blockSize, List.length_drop]; omega
    have hx : (xorBytes (src.take blockSize) prev).length = 16 := by
      rw [xorBytes_length _ _ (by rw [htake, hp]), htake]
    have hc := henc _ hx
    have ih := cbcEncryptBlocks_length enc henc n _ (src.drop blockSize) hc hdrop
    simp only [cbcEncryptBlocks, List.length_append, ih, hc]
    omega

/-- CBC decryption inverts CBC encryption when the block decryption inverts
the block encryption. -/
theorem cbcDecryptBlocks_cbcEncryptBlocks (enc dec : List Byte → List Byte)
    (henc : ∀ b, b.length = 16 → (enc b).length = 16)
    (hinv : ∀ b, b.length = 16 → dec (enc b) = b) :
    ∀ (n : Nat) (prev src : List Byte), prev.length = 16 → src.length = 16 * n →
      cbcDecryptBlocks dec n prev (cbcEncryptBlocks enc n prev src) = src
  | 0, _, src, _, hs => by
    have : src = [] := List.eq_nil_of_length_eq_zero (by omega)
    simp [cbcDecryptBlocks, this]
  | n + 1, prev, src, hp, hs => by
    have htake : (src.take blockSize).length = 16 := by
      simp only [blockSize, List.length_take]; omega
    have hdrop : (src.drop blockSize).length = 16 * n := by
      simp only [blockSize, List.length_drop]; omega
    have hx : (xorBytes (src.take blockSize) prev).length = 16 := by
      rw [xorBytes_length _ _ (by rw [htake, hp]), htake]
    have hc := henc _ hx
    have ih := cbcDecryptBlocks_cbcEncryptBlocks enc dec henc hinv n
      (enc (xorBytes (src.take blockSize) prev)) (src.drop blockSize) hc hdrop
    have ht : ∀ rest : List Byte,
        (enc (xorBytes (src.take blockSize) prev) ++ rest).take blockSize
          = enc (xorBytes (src.take blockSize) prev) := by
      intro rest
      exact List.take_left' hc
    have hd : ∀ rest : List Byte,
        (enc (xorBytes (src.take blockSize) prev) ++ rest).drop blockSize = rest := by
      intro rest
      exact List.drop_left' hc
    simp only [cbcDecryptBlocks, cbcEncryptBlocks, ht, hd, ih, hinv _ hx]
    rw [xorBytes_cancel _ _ (by rw [htake, hp]), List.take_append_drop]

theorem encryptChromiumCookie_shape (P : Primitives) (p pw : List Byte)
    (h : p.length % 16 = 0) :
    ¬ (encryptChromiumCookie P p pw).length < 3 ∧
    (encryptChromiumCookie P p pw).take 3 = versionTag ∧
    ((encryptChromiumCookie P p pw).drop 3).length % 16 = 0 ∧
    decryptedBuffer P ((encryptChromiumCookie P p pw).drop 3) pw = p := by
  have hk := derivedKey_length P pw
  have henc : ∀ b, b.length = 16 → (P.blockEncrypt (derivedKey P pw) b).length = 16 :=
    fun b hb => P.blockEncrypt_length _ b hk hb
  have hinv : ∀ b, b.length = 16 →
      P.blockDecrypt (derivedKey P pw) (P.blockEncrypt (derivedKey P pw) b) = b :=
    fun b hb => P.blockDecrypt_blockEncrypt _ b hk hb
  have hn : p.length = 16 * (p.length / 16) := by omega
  have hl := cbcEncryptBlocks_length _ henc (p.length / 16) chromiumIV p chromiumIV_length hn
  have hrt := cbcDecryptBlocks_cbcEncryptBlocks _ _ henc hinv (p.length / 16) chromiumIV p
    chromiumIV_length hn
  have hE : encryptChromiumCookie P p pw = versionTag ++
      cbcEncryptBlocks (P.blockEncrypt (derivedKey P pw)) (p.length / 16) chromiumIV p := rfl
  have hdrop : (encryptChromiumCookie P p pw).drop 3
      = cbcEncryptBlocks (P.blockEncrypt (derivedKey P pw)) (p.length / 16) chromiumIV p := by
    rw [hE]; exact List.drop_left' versionTag_length
  have htake : (encryptChromiumCookie P p pw).take 3 = versionTag := by
    rw [hE]; exact List.take_left' versionTag_length
  refine ⟨?_, htake, ?_, ?_⟩
  · rw [hE, List.length_append, versionTag_length]; omega
  · rw [hdrop, hl]; omega
  · rw [hdrop]
    simp only [decryptedBuffer, blockSize, hl]
    have : 16 * (p.length / 16) / 16 = p.length / 16 := by omega
    rw [this]
    exact hrt

/-- C1. `decryptChromiumCookie` classifies every input by a fixed precedence:
shorter than 3 bytes is the "too short" error; otherwise a 3-byte head other
than `"v10"` is the "unexpected encryption version" error; otherwise a rest
whose length is not a multiple of 16 is the "not multiple of block size"
error; every remaining input returns a plaintext and no error. -/
theorem decryptChromiumCookie_precedence (P : Primitives) (c pw : List Byte) :
    (c.length < 3 →
      decryptChromiumCookie P c pw = .fail (.errorf "encrypted value too short")) ∧
    (3 ≤ c.length → c.take 3 ≠ versionTag →
      decryptChromiumCookie P c pw
        = .fail (.errorfBytes "unexpected encryption version" (c.take 3))) ∧
    (3 ≤ c.length → c.take 3 = versionTag → (c.length - 3) % 16 ≠ 0 →
      decryptChromiumCookie P c pw
        = .fail (.errorf "data length not multiple of block size")) ∧
    (3 ≤ c.length → c.take 3 = versionTag → (c.length - 3) % 16 = 0 →
      ∃ plain, decryptChromiumCookie P c pw = .value plain) := by
  refine ⟨?_, ?_, ?_, ?_⟩
  · intro h
    unfold decryptChromiumCookie
    rw [if_pos h]
  · intro h hv
    unfold decryptChromiumCookie
    rw [if_neg (by omega), if_pos hv]
  · intro h hv hm
    unfold decryptChromiumCookie
    rw [if_neg (by omega), if_neg (by simpa using hv)]
    simp only []
    rw [if_pos (by simpa using hm)]
  · intro h hv hm
    obtain ⟨plain, _, hplain⟩ := decryptChromiumCookie_aligned P c pw (by omega) hv
      (by simpa using hm)
    exact ⟨plain, hplain⟩

/-- C1 at concrete inputs: a 2-byte value, a value tagged `"v11"`, a `"v10"`
value with a 20-byte rest, and the bare tag `"v10"`. -/
theorem decryptChromiumCookie_precedence_witness :
    decryptChromiumCookie toyPrimitives (bytesOf "v1") []
      = .fail (.errorf "encrypted value too short") ∧
    decryptChromiumCookie toyPrimitives (bytesOf "v11aaaaaaaaaaaaaaaa") []
      = .fail (.errorfBytes "unexpected encryption version" (bytesOf "v11")) ∧
    decryptChromiumCookie toyPrimitives (bytesOf "v10aaaaaaaaaaaaaaaaaaaa") []
      = .fail (.errorf "data length not multiple of block size") ∧
    (∃ plain, decryptChromiumCookie toyPrimitives (bytesOf "v10") [] = .value plain) :=
  ⟨(decryptChromiumCookie_precedence toyPrimitives (bytesOf "v1") []).1 (by decide),
   (decryptChromiumCookie_precedence toyPrimitives (bytesOf "v11aaaaaaaaaaaaaaaa") []).2.1
     (by decide) (by decide),
   (decryptChromiumCookie_precedence toyPrimitives (bytesOf "v10aaaaaaaaaaaaaaaaaaaa") []).2.2.1
     (by decide) (by decide) (by decide),
   (decryptChromiumCookie_precedence toyPrimitives (bytesOf "v10") []).2.2.2
     (by decide) (by decide) (by decide)⟩

/-- Decrypting the encryption of a block-aligned plaintext returns the padding
strip of the plaintext. -/
theorem decrypt_encrypt_strip (P : Primitives) (pw p : List Byte) (h : p.length % 16 = 0) :
    decryptChromiumCookie P (encryptChromiumCookie P p pw) pw
      = .value (match p.getLast? with
        | none => []
        | some n => if 1 ≤ n.val ∧ n.val ≤ 16 then p.take (p.length - n.val) else p) := by
  obtain ⟨h3, hv, hm, hbuf⟩ := encryptChromiumCookie_shape P p pw h
  obtain ⟨plain, hstrip, hres⟩ :=
    decryptChromiumCookie_aligned P (encryptChromiumCookie P p pw) pw h3 hv hm
  rw [hbuf, stripPadding_eq p h] at hstrip
  simp only [Option.some.injEq] at hstrip
  rw [hres, hstrip]

/-- C2, counterexample. The plaintext of one block of sixteen bytes `0x10`
does not survive the round trip: the padding strip removes all of it, under
the concrete primitives and under every other instance. -/
theorem roundTrip_counterexample :
    (List.replicate 16 (16 : Byte)).length % 16 = 0 ∧
    decryptChromiumCookie toyPrimitives
      (encryptChromiumCookie toyPrimitives (List.replicate 16 16) (bytesOf "pw")) (bytesOf "pw")
      = .value [] ∧
    decryptChromiumCookie toyPrimitives
      (encryptChromiumCookie toyPrimitives (List.replicate 16 16) (bytesOf "pw")) (bytesOf "pw")
      ≠ .value (List.replicate 16 16) ∧
    ∀ (P : Primitives) (pw : List Byte),
      decryptChromiumCookie P (encryptChromiumCookie P (List.replicate 16 16) pw) pw
        = .value [] := by
  refine ⟨by decide, by decide, by decide, ?_⟩
  intro P pw
  rw [decrypt_encrypt_strip P pw (List.replicate 16 16) (by decide)]
  rfl

/-- C2, amended. For every instance of the primitives, every passphrase and
every plaintext `p` of block-aligned length, decrypting the encryption of `p`
returns `p` with its padding stripped: `p` itself when `p` is empty or its
last byte is 0 or above 16, and `p` without its last `n` bytes when its last
byte `n` is between 1 and 16. -/
theorem roundTrip_upTo_padding (P : Primitives) (pw p : List Byte) (h : p.length % 16 = 0) :
    (p = [] →
      decryptChromiumCookie P (encryptChromiumCookie P p pw) pw = .value []) ∧
    (∀ n : Byte, p.getLast? = some n → (n.val = 0 ∨ 16 < n.val) →
      decryptChromiumCookie P (encryptChromiumCookie P p pw) pw = .value p) ∧
    (∀ n : Byte, p.getLast? = some n → 1 ≤ n.val → n.val ≤ 16 →
      decryptChromiumCookie P (encryptChromiumCookie P p pw) pw
        = .value (p.take (p.length - n.val))) := by
  rw [decrypt_encrypt_strip P pw p h]
  refine ⟨?_, ?_, ?_⟩
  · intro hp
    subst hp
    rfl
  · intro n hn hcase
    rw [hn]
    simp only []
    rw [if_neg (by omega)]
  · intro n hn h1 h16
    rw [hn]
    simp only []
    rw [if_pos ⟨h1, h16⟩]

/-- C2 amended, at concrete inputs: a block ending in `0x00` comes back whole,
a block ending in `0x03` comes back without its last three bytes. -/
theorem roundTrip_upTo_padding_witness :
    decryptChromiumCookie toyPrimitives
      (encryptChromiumCookie toyPrimitives (List.replicate 16 0) (bytesOf "pw")) (bytesOf "pw")
      = .value (List.replicate 16 0) ∧
    decryptChromiumCookie toyPrimitives
      (encryptChromiumCookie toyPrimitives (List.replicate 16 3) (bytesOf "pw")) (bytesOf "pw")
      = .value (List.replicate 13 3) :=
  ⟨(roundTrip_upTo_padding toyPrimitives (bytesOf "pw") (List.replicate 16 0) (by decide)).2.1
     0 (by decide) (by decide),
   (roundTrip_upTo_padding toyPrimitives (bytesOf "pw") (List.replicate 16 3) (by decide)).2.2
     3 (by decide) (by decide) (by decide)⟩

/-- C3. In `decryptChromiumCookie`, for a block-aligned payload `data` the
decrypted buffer `d` has the length of `data`; an empty `d` is returned as the
empty string; for a non-empty `d` with last byte `n`, the result is `d`
without its last `n` bytes when `1 ≤ n ≤ 16`, where `n` is at most the length
of `d` (the slice `d[:len(d)-n]` is in bounds), and `d` unmodified when
`n = 0` or `n > 16`. -/
theorem decryptChromiumCookie_padding_strip (P : Primitives) (pw data : List Byte)
    (h : data.length % 16 = 0) :
    (decryptedBuffer P data pw).length = data.length ∧
    (decryptedBuffer P data pw = [] →
      decryptChromiumCookie P (versionTag ++ data) pw = .value []) ∧
    (∀ n : Byte, (decryptedBuffer P data pw).getLast? = some n →
      0 < (decryptedBuffer P data pw).length ∧
      (decryptedBuffer P data pw).length % 16 = 0 ∧
      (1 ≤ n.val ∧ n.val ≤ 16 →
        n.val ≤ (decryptedBuffer P data pw).length ∧
        decryptChromiumCookie P (versionTag ++ data) pw
          = .value ((decryptedBuffer P data pw).take
              ((decryptedBuffer P data pw).length - n.val))) ∧
      (n.val = 0 ∨ 16 < n.val →
        decryptChromiumCookie P (versionTag ++ data) pw
          = .value (decryptedBuffer P data pw))) := by
  have hlen := decryptedBuffer_length P data pw h
  have hdrop : (versionTag ++ data).drop 3 = data := List.drop_left' versionTag_length
  have htake : (versionTag ++ data).take 3 = versionTag := List.take_left' versionTag_length
  obtain ⟨plain, hstrip, hres⟩ := decryptChromiumCookie_aligned P (versionTag ++ data) pw
    (by rw [List.length_append, versionTag_length]; omega) htake (by rw [hdrop]; exact h)
  rw [hdrop, stripPadding_eq _ (by rw [hlen]; exact h)] at hstrip
  rw [hres]
  refine ⟨hlen, ?_, ?_⟩
  · intro hd
    rw [hd] at hstrip
    simp at hstrip
    rw [hstrip]
  · intro n hn
    rw [hn] at hstrip
    simp only [Option.some.injEq] at hstrip
    have hpos : 0 < (decryptedBuffer P data pw).length := by
      rcases hq : decryptedBuffer P data pw with _ | ⟨x, xs⟩
      · rw [hq] at hn; simp at hn
      · simp
    have hmod : (decryptedBuffer P data pw).length % 16 = 0 := by rw [hlen]; exact h
    have hn256 := n.isLt
    refine ⟨hpos, hmod, ?_, ?_⟩
    · intro hp
      rw [if_pos hp] at hstrip
      rw [hstrip]
      exact ⟨by omega, rfl⟩
    · intro hp
      rw [if_neg (by omega)] at hstrip
      rw [hstrip]

/-- C3 at a concrete input: the payload of the stored organization cookie
decrypts to three blocks ending in `0x0c`, and the result is the buffer without
its last twelve bytes. -/
theorem decryptChromiumCookie_padding_strip_witness :
    (decryptedBuffer toyPrimitives sampleOrgPayload samplePassword).length
      = sampleOrgPayload.length ∧
    decryptChromiumCookie toyPrimitives (versionTag ++ sampleOrgPayload) samplePassword
      = .value (bytesOf "0123456a-89ab-cdef-0123-456789abcdef") :=
  ⟨(decryptChromiumCookie_padding_strip toyPrimitives samplePassword sampleOrgPayload
      (by decide)).1,
   ((((decryptChromiumCookie_padding_strip toyPrimitives samplePassword sampleOrgPayload
      (by decide)).2.2 12 (by decide)).2.2.1 ⟨by decide, by decide⟩).2).trans (by decide)⟩

/-! ## The pattern matcher -/

theorem matches_nil (w : List Byte) : Matches [] w ↔ w = [] := Iff.rfl

theorem matches_one (cls : CharClass) (rest : Regexp) (w : List Byte) :
    Matches (Item.one cls :: rest) w ↔
      ∃ b v, w = b :: v ∧ cls.test b = true ∧ Matches rest v := Iff.rfl

theorem matches_oneOrMore (cls : CharClass) (rest : Regexp) (w : List Byte) :
    Matches (Item.oneOrMore cls :: rest) w ↔
      ∃ u v, w = u ++ v ∧ u ≠ [] ∧ (∀ b ∈ u, cls.test b = true) ∧ Matches rest v := Iff.rfl

/-- Every item consumes at least one byte. -/
theorem matches_length : ∀ (re : Regexp) (w : List Byte), Matches re w → re.length ≤ w.length
  | [], _, _ => by simp
  | Item.one cls :: rest, w, h => by
    obtain ⟨b, v, hw, _, hv⟩ := (matches_one cls rest w).1 h
    have := matches_length rest v hv
    subst hw
    simpa using this
  | Item.oneOrMore cls :: rest, w, h => by
    obtain ⟨u, v, hw, hu, _, hv⟩ := (matches_oneOrMore cls rest w).1 h
    have := matches_length rest v hv
    have hpos : 0 < u.length := List.length_pos.2 hu
    subst hw
    simp only [List.length_append, List.length_cons]
    omega

theorem greedy_sound (cls : CharClass) (k : List Byte → Option (List Byte))
    (Q : List Byte → Prop)
    (hk : ∀ s v, k s = some v → ∃ post, s = v ++ post ∧ Q v) :
    ∀ (s w : List Byte), greedy cls k s = some w →
      ∃ u v post, w = u ++ v ∧ u ≠ [] ∧ (∀ b ∈ u, cls.test b = true) ∧ Q v ∧ s = w ++ post
  | [], w, h => by simp [greedy] at h
  | b :: s, w, h => by
    by_cases hb : cls.test b = true
    · simp only [greedy, hb, if_true] at h
      cases hg : greedy cls k s with
      | some w1 =>
        rw [hg] at h
        simp only [Option.some.injEq] at h
        obtain ⟨u, v, post, hw1, _, hall, hq, hs⟩ := greedy_sound cls k Q hk s w1 hg
        refine ⟨b :: u, v, post, ?_, by simp, ?_, hq, ?_⟩
        · rw [← h, hw1]; rfl
        · intro x hx
          rcases List.mem_cons.1 hx with hx | hx
          · rw [hx]; exact hb
          · exact hall x hx
        · rw [← h, hs]; rfl
      | none =>
        rw [hg] at h
        simp only [Option.map_eq_some'] at h
        obtain ⟨v, hv, hw⟩ := h
        obtain ⟨post, hs, hq⟩ := hk s v hv
        refine ⟨[b], v, post, ?_, by simp, ?_, hq, ?_⟩
        · rw [← hw]; rfl
        · intro x hx
          rw [List.mem_singleton.1 hx]; exact hb
        · rw [← hw, hs]; rfl
    · simp [greedy, hb] at h

theorem greedy_complete (cls : CharClass) (k : List Byte → Option (List Byte)) :
    ∀ (u rest : List Byte), u ≠ [] → (∀ b ∈ u, cls.test b = true) →
      (∃ v, k rest = some v) → ∃ w, greedy cls k (u ++ rest) = some w
  | [], _, hu, _, _ => absurd rfl hu
  | b :: u, rest, _, hall, hk => by
    have hb : cls.test b = true := hall b (List.mem_cons_self b u)
    show ∃ w, greedy cls k (b :: (u ++ rest)) = some w
    simp only [greedy, hb, if_true]
    cases hg : greedy cls k (u ++ rest) with
    | some w1 => exact ⟨b :: w1, rfl⟩
    | none =>
      rcases u with _ | ⟨c, u⟩
      · obtain ⟨v, hv⟩ := hk
        simp only [List.nil_append] at hg ⊢
        rw [hv]
        exact ⟨b :: v, rfl⟩
      · obtain ⟨w1, hw1⟩ := greedy_complete cls k (c :: u) rest (by simp)
          (fun x hx => hall x (List.mem_cons_of_mem b hx)) hk
        rw [hw1] at hg
        exact absurd hg (by simp)

/-- What `matchPrefix` returns is a match of the pattern at the start of the
input. -/
theorem matchPrefix_sound : ∀ (re : Regexp) (s w : List Byte), matchPrefix re s = some w →
    ∃ post, s = w ++ post ∧ Matches re w
  | [], s, w, h => by
    simp only [matchPrefix, Option.some.injEq] at h
    exact ⟨s, by rw [← h]; rfl, h.symm⟩
  | Item.one cls :: rest, [], w, h => by simp [matchPrefix] at h
  | Item.one cls :: rest, b :: s, w, h => by
    by_cases hb : cls.test b = true
    · simp only [matchPrefix, hb, if_true, Option.map_eq_some'] at h
      obtain ⟨v, hv, hw⟩ := h
      obtain ⟨post, hs, hm⟩ := matchPrefix_sound rest s v hv
      refine ⟨post, by rw [← hw, hs]; rfl, ?_⟩
      exact (matches_one cls rest w).2 ⟨b, v, hw.symm, hb, hm⟩
    · simp [matchPrefix, hb] at h
  | Item.oneOrMore cls :: rest, s, w, h => by
    have h2 : greedy cls (matchPrefix rest) s = some w := by
      cases s <;> simpa [matchPrefix] using h
    obtain ⟨u, v, post, hw, hu, hall, hq, hs⟩ := greedy_sound cls (matchPrefix rest)
      (Matches rest) (fun s v hv => matchPrefix_sound rest s v hv) s w h2
    exact ⟨post, hs, (matches_oneOrMore cls rest w).2 ⟨u, v, hw, hu, hall, hq⟩⟩

/-- Where the pattern has a match at the start of the input, `matchPrefix`
returns one. -/
theorem matchPrefix_complete : ∀ (re : Regexp) (w post : List Byte), Matches re w →
    ∃ w1, matchPrefix re (w ++ post) = some w1
  | [], w, post, _ => ⟨[], by simp [matchPrefix]⟩
  | Item.one cls :: rest, w, post, h => by
    obtain ⟨b, v, hw, hb, hv⟩ := (matches_one cls rest w).1 h
    obtain ⟨w1, hw1⟩ := matchPrefix_complete rest v post hv
    subst hw
    exact ⟨b :: w1, by simp [matchPrefix, hb, hw1]⟩
  | Item.oneOrMore cls :: rest, w, post, h => by
    obtain ⟨u, v, hw, hu, hall, hv⟩ := (matches_oneOrMore cls rest w).1 h
    obtain ⟨w1, hw1⟩ := greedy_complete cls (matchPrefix rest) u (v ++ post) hu hall
      (matchPrefix_complete rest v post hv)
    subst hw
    refine ⟨w1, ?_⟩
    rw [List.append_assoc]
    cases hq : u ++ (v ++ post) <;> simpa [matchPrefix, hq] using hw1

/-- No match found: no substring of the input matches. -/
theorem findMatch_none (re : Regexp) : ∀ (s : List Byte), findMatch re s = none →
    ∀ pre w post, s = pre ++ w ++ post → ¬ Matches re w
  | [], h, pre, w, post, hs, hm => by
    simp only [findMatch, Option.map_eq_none'] at h
    have hw : w = [] := by
      have := congrArg List.length hs
      simp only [List.length_nil, List.length_append] at this
      exact List.eq_nil_of_length_eq_zero (by omega)
    obtain ⟨w1, hw1⟩ := matchPrefix_complete re w [] hm
    rw [hw] at hw1
    simp only [List.append_nil] at hw1
    rw [h] at hw1
    exact absurd hw1 (by simp)
  | b :: s, h, pre, w, post, hs, hm => by
    cases hp : matchPrefix re (b :: s) with
    | some w1 => simp [findMatch, hp] at h
    | none =>
      simp only [findMatch, hp, Option.map_eq_none'] at h
      rcases pre with _ | ⟨c, pre⟩
      · obtain ⟨w1, hw1⟩ := matchPrefix_complete re w post hm
        simp only [List.nil_append] at hs
        rw [← hs, hp] at hw1
        exact absurd hw1 (by simp)
      · simp only [List.cons_append, List.cons.injEq] at hs
        exact findMatch_none re s h pre w post hs.2 hm

/-- A match found at offset `i`: it is a match of the pattern occurring at
offset `i`, and no substring starting before `i` matches. -/
theorem findMatch_some (re : Regexp) : ∀ (s : List Byte) (i : Nat) (w : List Byte),
    findMatch re s = some (i, w) →
    ∃ pre post, s = pre ++ w ++ post ∧ pre.length = i ∧ Matches re w ∧
      matchPrefix re (w ++ post) = some w ∧
      ∀ pre2 w2 post2, s = pre2 ++ w2 ++ post2 → Matches re w2 → i ≤ pre2.length
  | [], i, w, h => by
    simp only [findMatch, Option.map_eq_some', Prod.mk.injEq] at h
    obtain ⟨w1, hw1, hi, hw⟩ := h
    obtain ⟨post, hs, hm⟩ := matchPrefix_sound re [] w1 hw1
    subst hw
    exact ⟨[], post, by simpa using hs, hi, hm, by rw [← hs]; exact hw1,
      fun _ _ _ _ _ => by omega⟩
  | b :: s, i, w, h => by
    cases hp : matchPrefix re (b :: s) with
    | some w1 =>
      simp only [findMatch, hp, Option.some.injEq, Prod.mk.injEq] at h
      obtain ⟨post, hs, hm⟩ := matchPrefix_sound re (b :: s) w1 hp
      obtain ⟨hi, hw⟩ := h
      subst hw
      exact ⟨[], post, by simpa using hs, hi, hm, by rw [← hs]; exact hp,
        fun _ _ _ _ _ => by omega⟩
    | none =>
      simp only [findMatch, hp, Option.map_eq_some'] at h
      obtain ⟨⟨j, w1⟩, hf, hjw⟩ := h
      simp only [Prod.mk.injEq] at hjw
      obtain ⟨hj, hw⟩ := hjw
      subst hw
      obtain ⟨pre, post, hs, hlen, hm, hmp, hmin⟩ := findMatch_some re s j w1 hf
      refine ⟨b :: pre, post, by rw [hs]; simp, by simp [hlen, hj], hm, hmp, ?_⟩
      intro pre2 w2 post2 hs2 hm2
      rcases pre2 with _ | ⟨c, pre2⟩
      · obtain ⟨w3, hw3⟩ := matchPrefix_complete re w2 post2 hm2
        simp only [List.nil_append] at hs2
        rw [← hs2, hp] at hw3
        exact absurd hw3 (by simp)
      · simp only [List.cons_append, List.cons.injEq] at hs2
        have := hmin pre2 w2 post2 hs2.2 hm2
        simp only [List.length_cons]
        omega

theorem sessionKeyRegex_length : sessionKeyRegex.length = 11 := by decide

theorem uuidRegex_length : uuidRegex.length = 36 := by decide

/-- Specification of `FindString` for a pattern with at least one item: the
result is empty exactly when no substring matches, and otherwise is the
leftmost match. -/
theorem findString_spec (re : Regexp) (hre : 0 < re.length) (s : List Byte) :
    (FindString re s = [] ↔ ¬ ∃ pre w post, s = pre ++ w ++ post ∧ Matches re w) ∧
    ((∃ pre w post, s = pre ++ w ++ post ∧ Matches re w) →
      ∃ pre post, s = pre ++ FindString re s ++ post ∧ FindString re s ≠ [] ∧
        Matches re (FindString re s) ∧
        ∀ pre2 w2 post2, s = pre2 ++ w2 ++ post2 → Matches re w2 →
          pre.length ≤ pre2.length) := by
  cases hf : findMatch re s with
  | none =>
    have hnone := findMatch_none re s hf
    have hempty : FindString re s = [] := by simp [FindString, hf]
    refine ⟨⟨fun _ => ?_, fun _ => hempty⟩, ?_⟩
    · rintro ⟨pre, w, post, hs, hm⟩
      exact hnone pre w post hs hm
    · rintro ⟨pre, w, post, hs, hm⟩
      exact absurd hm (hnone pre w post hs)
  | some r =>
    obtain ⟨i, w⟩ := r
    obtain ⟨pre, post, hs, hlen, hm, _, hmin⟩ := findMatch_some re s i w hf
    have hfs : FindString re s = w := by simp [FindString, hf]
    have hne : w ≠ [] := by
      have := matches_length re w hm
      intro hw
      rw [hw, List.length_nil] at this
      omega
    rw [hfs]
    refine ⟨⟨fun hw => absurd hw hne, fun hno => absurd ⟨pre, w, post, hs, hm⟩ hno⟩, ?_⟩
    intro _
    exact ⟨pre, post, hs, hne, hm, fun pre2 w2 post2 hs2 hm2 => by
      have := hmin pre2 w2 post2 hs2 hm2
      omega⟩


/-- The greedy `+` at the end of a pattern takes every byte of the class it
can: no run of class bytes at the start of the input is longer than its
result. -/
theorem greedy_longest (cls : CharClass) : ∀ (s w w2 post2 : List Byte),
    greedy cls (matchPrefix []) s = some w → s = w2 ++ post2 →
    (∀ b ∈ w2, cls.test b = true) → w2.length ≤ w.length
  | [], w, _, _, h, _, _ => by simp [greedy] at h
  | b :: s, w, [], post2, _, _, _ => by simp
  | b :: s, w, c :: w2, post2, h, hs, hall => by
    simp only [List.cons_append, List.cons.injEq] at hs
    obtain ⟨hbc, hs⟩ := hs
    have hb : cls.test b = true := by
      rw [hbc]; exact hall c (List.mem_cons_self c w2)
    have hall2 : ∀ x ∈ w2, cls.test x = true := fun x hx => hall x (List.mem_cons_of_mem c hx)
    simp only [greedy, hb, if_true] at h
    cases hg : greedy cls (matchPrefix []) s with
    | some w1 =>
      rw [hg] at h
      simp only [Option.some.injEq] at h
      have ih := greedy_longest cls s w1 w2 post2 hg hs hall2
      rw [← h]
      simp only [List.length_cons]
      omega
    | none =>
      rcases w2 with _ | ⟨d, w2⟩
      · rw [hg] at h
        simp only [Option.map_eq_some'] at h
        obtain ⟨v, _, hw⟩ := h
        rw [← hw]
        simp
      · obtain ⟨w1, hw1⟩ := greedy_complete cls (matchPrefix []) (d :: w2) post2 (by simp)
          hall2 ⟨[], by simp [matchPrefix]⟩
        rw [← hs, hg] at hw1
        exact absurd hw1 (by simp)

/-- For a pattern whose only `+` is its last item, the match `matchPrefix`
returns is the longest match at the start of the input. -/
theorem matchPrefix_longest : ∀ (re : Regexp), plusOnlyLast re = true →
    ∀ (s w w2 post2 : List Byte), matchPrefix re s = some w → s = w2 ++ post2 →
      Matches re w2 → w2.length ≤ w.length
  | [], _, s, w, w2, post2, _, _, hm => by
    rw [(matches_nil w2).1 hm]
    simp
  | Item.one cls :: rest, hp, [], w, w2, post2, h, _, _ => by simp [matchPrefix] at h
  | Item.one cls :: rest, hp, b :: s, w, w2, post2, h, hs, hm => by
    have hp2 : plusOnlyLast rest = true := by simpa [plusOnlyLast] using hp
    obtain ⟨c, v2, hw2, _, hv2⟩ := (matches_one cls rest w2).1 hm
    subst hw2
    simp only [List.cons_append, List.cons.injEq] at hs
    by_cases hb : cls.test b = true
    · simp only [matchPrefix, hb, if_true, Option.map_eq_some'] at h
      obtain ⟨v, hv, hw⟩ := h
      have ih := matchPrefix_longest rest hp2 s v v2 post2 hv hs.2 hv2
      rw [← hw]
      simp only [List.length_cons]
      omega
    · simp [matchPrefix, hb] at h
  | [Item.oneOrMore cls], _, s, w, w2, post2, h, hs, hm => by
    have h2 : greedy cls (matchPrefix []) s = some w := by
      cases s <;> simpa [matchPrefix] using h
    obtain ⟨u, v, hw2, _, hall, hv⟩ := (matches_oneOrMore cls [] w2).1 hm
    have hv2 : v = [] := (matches_nil v).1 hv
    rw [hv2, List.append_nil] at hw2
    rw [hw2] at hs ⊢
    exact greedy_longest cls s w u post2 h2 hs hall
  | Item.oneOrMore cls :: it :: rest, hp, _, _, _, _, _, _, _ => by
    simp [plusOnlyLast] at hp

/-- A pattern without `+` matches only texts of its own length. -/
theorem matches_fixedWidth_length : ∀ (re : Regexp) (w : List Byte), fixedWidth re = true →
    Matches re w → w.length = re.length
  | [], w, _, h => by simp [(matches_nil w).1 h]
  | Item.one cls :: rest, w, hf, h => by
    obtain ⟨b, v, hw, _, hv⟩ := (matches_one cls rest w).1 h
    have := matches_fixedWidth_length rest v (by simpa [fixedWidth] using hf) hv
    rw [hw]
    simp only [List.length_cons, this]
  | Item.oneOrMore cls :: rest, w, hf, _ => by simp [fixedWidth] at hf

/-- A match of a pattern ending in `cls+` extends by one more byte of `cls`. -/
theorem matches_extend (cls : CharClass) (b : Byte) (hb : cls.test b = true) :
    ∀ (front : Regexp) (w : List Byte), Matches (front ++ [Item.oneOrMore cls]) w →
      Matches (front ++ [Item.oneOrMore cls]) (w ++ [b])
  | [], w, h => by
    obtain ⟨u, v, hw, hu, hall, hv⟩ := (matches_oneOrMore cls [] w).1 h
    have hv2 : v = [] := (matches_nil v).1 hv
    refine (matches_oneOrMore cls [] (w ++ [b])).2 ⟨u ++ [b], [], ?_, by simp, ?_, rfl⟩
    · rw [hw, hv2]; simp
    · intro x hx
      rcases List.mem_append.1 hx with hx | hx
      · exact hall x hx
      · rw [List.mem_singleton.1 hx]; exact hb
  | Item.one c :: front, w, h => by
    obtain ⟨x, v, hw, hx, hv⟩ := (matches_one c (front ++ [Item.oneOrMore cls]) w).1 h
    have ih := matches_extend cls b hb front v hv
    exact (matches_one c (front ++ [Item.oneOrMore cls]) (w ++ [b])).2
      ⟨x, v ++ [b], by rw [hw]; rfl, hx, ih⟩
  | Item.oneOrMore c :: front, w, h => by
    obtain ⟨u, v, hw, hu, hall, hv⟩ :=
      (matches_oneOrMore c (front ++ [Item.oneOrMore cls]) w).1 h
    have ih := matches_extend cls b hb front v hv
    exact (matches_oneOrMore c (front ++ [Item.oneOrMore cls]) (w ++ [b])).2
      ⟨u, v ++ [b], by rw [hw, List.append_assoc], hu, hall, ih⟩

theorem sessionKeyRegex_plusOnlyLast : plusOnlyLast sessionKeyRegex = true := by decide

theorem uuidRegex_plusOnlyLast : plusOnlyLast uuidRegex = true := by decide

theorem uuidRegex_fixedWidth : fixedWidth uuidRegex = true := by decide

/-- Which match `FindString` returns, for a pattern with at least one item
whose only `+` is its last item: where some substring matches, the result
occurs in the input, is a non-empty match, starts at the leftmost offset at
which a match starts, and is the longest match starting there. -/
theorem findString_first (re : Regexp) (hre : 0 < re.length) (hplus : plusOnlyLast re = true)
    (s : List Byte) (hex : ∃ pre w post, s = pre ++ w ++ post ∧ Matches re w) :
    ∃ pre post, s = pre ++ FindString re s ++ post ∧ FindString re s ≠ [] ∧
      Matches re (FindString re s) ∧
      (∀ pre2 w2 post2, s = pre2 ++ w2 ++ post2 → Matches re w2 →
        pre.length ≤ pre2.length) ∧
      (∀ pre2 w2 post2, s = pre2 ++ w2 ++ post2 → Matches re w2 →
        pre2.length = pre.length → w2.length ≤ (FindString re s).length) := by
  cases hf : findMatch re s with
  | none =>
    obtain ⟨pre, w, post, hs, hm⟩ := hex
    exact absurd hm (findMatch_none re s hf pre w post hs)
  | some r =>
    obtain ⟨i, w⟩ := r
    obtain ⟨pre, post, hs, hlen, hm, hmp, hmin⟩ := findMatch_some re s i w hf
    have hfs : FindString re s = w := by simp [FindString, hf]
    have hne : w ≠ [] := by
      have := matches_length re w hm
      intro hw
      rw [hw, List.length_nil] at this
      omega
    rw [hfs]
    refine ⟨pre, post, hs, hne, hm, ?_, ?_⟩
    · intro pre2 w2 post2 hs2 hm2
      have := hmin pre2 w2 post2 hs2 hm2
      omega
    · intro pre2 w2 post2 hs2 hm2 hl
      have heq : pre2 ++ (w2 ++ post2) = pre ++ (w ++ post) := by
        rw [← List.append_assoc, ← List.append_assoc, ← hs2, ← hs]
      obtain ⟨_, hrest⟩ := List.append_inj heq hl
      exact matchPrefix_longest re hplus (w ++ post) w w2 post2 hmp hrest.symm hm2

/-! ## `getCookieValue` and `GetCredentials` -/

/-- `decryptChromiumCookie` returns or fails; it does not panic. -/
theorem decryptChromiumCookie_value_or_fail (P : Primitives) (c pw : List Byte) :
    (∃ plain, decryptChromiumCookie P c pw = .value plain) ∨
    (∃ e, decryptChromiumCookie P c pw = .fail e) := by
  by_cases h3 : c.length < 3
  · right
    exact ⟨_, by unfold decryptChromiumCookie; rw [if_pos h3]⟩
  · by_cases hv : c.take 3 = versionTag
    · by_cases hm : (c.drop 3).length % 16 = 0
      · left
        obtain ⟨plain, _, hplain⟩ := decryptChromiumCookie_aligned P c pw h3 hv hm
        exact ⟨plain, hplain⟩
      · right
        refine ⟨.errorf "data length not multiple of block size", ?_⟩
        unfold decryptChromiumCookie
        rw [if_neg h3, if_neg (by simpa using hv)]
        simp only []
        rw [if_pos hm]
    · right
      exact ⟨_, by unfold decryptChromiumCookie; rw [if_neg h3, if_pos hv]⟩

/-- After a successful read and decryption, `getCookieValue` is decided by
`FindString`. -/
theorem getCookieValue_of_decrypted (P : Primitives) (db : DB) (cookieName : String)
    (pw enc s : List Byte) (pattern : Regexp)
    (hq : db.queryRow cookieName = .ok enc)
    (hd : decryptChromiumCookie P enc pw = .value s) :
    getCookieValue P db cookieName pw pattern =
      if FindString pattern s = [] then
        .fail (.errorf ("pattern not found in decrypted " ++ cookieName))
      else .value (FindString pattern s) := by
  unfold getCookieValue
  rw [hq]
  simp only []
  rw [hd]

/-- `getCookieValue` returns or fails; it does not panic. -/
theorem getCookieValue_value_or_fail (P : Primitives) (db : DB) (cookieName : String)
    (pw : List Byte) (pattern : Regexp) :
    (∃ v, getCookieValue P db cookieName pw pattern = .value v) ∨
    (∃ e, getCookieValue P db cookieName pw pattern = .fail e) := by
  cases hq : db.queryRow cookieName with
  | error err =>
    right
    exact ⟨_, by unfold getCookieValue; rw [hq]⟩
  | ok enc =>
    rcases decryptChromiumCookie_value_or_fail P enc pw with ⟨s, hs⟩ | ⟨e, he⟩
    · rw [getCookieValue_of_decrypted P db cookieName pw enc s pattern hq hs]
      by_cases hf : FindString pattern s = []
      · right; exact ⟨_, by rw [if_pos hf]⟩
      · left; exact ⟨_, by rw [if_neg hf]⟩
    · right
      refine ⟨.wrapf ("failed to decrypt cookie " ++ cookieName) e, ?_⟩
      unfold getCookieValue
      rw [hq]
      simp only []
      rw [he]

/-- A value returned by `getCookieValue` is a non-empty match of the pattern. -/
theorem getCookieValue_value (P : Primitives) (db : DB) (cookieName : String)
    (pw v : List Byte) (pattern : Regexp) (hre : 0 < pattern.length)
    (h : getCookieValue P db cookieName pw pattern = .value v) :
    v ≠ [] ∧ Matches pattern v := by
  cases hq : db.queryRow cookieName with
  | error err =>
    unfold getCookieValue at h
    rw [hq] at h
    exact absurd h (by simp)
  | ok enc =>
    rcases decryptChromiumCookie_value_or_fail P enc pw with ⟨s, hs⟩ | ⟨e, he⟩
    · rw [getCookieValue_of_decrypted P db cookieName pw enc s pattern hq hs] at h
      by_cases hf : FindString pattern s = []
      · rw [if_pos hf] at h
        exact absurd h (by simp)
      · rw [if_neg hf] at h
        simp only [Outcome.value.injEq] at h
        obtain ⟨hiff, hsome⟩ := findString_spec pattern hre s
        have hex : ∃ pre w post, s = pre ++ w ++ post ∧ Matches pattern w := by
          by_contra hno
          exact hf (hiff.2 hno)
        obtain ⟨_, _, _, hne, hm, _⟩ := hsome hex
        rw [← h]
        exact ⟨hne, hm⟩
    · unfold getCookieValue at h
      rw [hq] at h
      simp only [] at h
      rw [he] at h
      exact absurd h (by simp)

/-- C4. In `getCookieValue`, for a decrypted plaintext `s` and either of the
two patterns, the call fails with "pattern not found" exactly when no
substring of `s` matches the pattern; otherwise it returns the first match:
a substring of `s` that is non-empty, matches the pattern in full, starts at
the leftmost offset at which any matching substring starts, and is the longest
match starting there, so that any match starting no later and no shorter is
the returned text itself. For the session-token pattern the byte after the
returned text, if any, is not a token character; for the UUID pattern the
returned text has 36 bytes. -/
theorem getCookieValue_pattern (P : Primitives) (db : DB) (cookieName : String)
    (pw enc s : List Byte) (pattern : Regexp)
    (hpat : pattern = sessionKeyRegex ∨ pattern = uuidRegex)
    (hq : db.queryRow cookieName = .ok enc)
    (hd : decryptChromiumCookie P enc pw = .value s) :
    (getCookieValue P db cookieName pw pattern
        = .fail (.errorf ("pattern not found in decrypted " ++ cookieName)) ↔
      ¬ ∃ pre w post, s = pre ++ w ++ post ∧ Matches pattern w) ∧
    ((∃ pre w post, s = pre ++ w ++ post ∧ Matches pattern w) →
      ∃ pre w post, getCookieValue P db cookieName pw pattern = .value w ∧
        s = pre ++ w ++ post ∧ w ≠ [] ∧ Matches pattern w ∧
        (∀ pre2 w2 post2, s = pre2 ++ w2 ++ post2 → Matches pattern w2 →
          pre.length ≤ pre2.length) ∧
        (∀ pre2 w2 post2, s = pre2 ++ w2 ++ post2 → Matches pattern w2 →
          pre2.length = pre.length → w2.length ≤ w.length) ∧
        (∀ pre2 w2 post2, s = pre2 ++ w2 ++ post2 → Matches pattern w2 →
          pre2.length ≤ pre.length → w.length ≤ w2.length → w2 = w) ∧
        (pattern = sessionKeyRegex →
          ∀ b rest, post = b :: rest → tokenClass.test b = false) ∧
        (pattern = uuidRegex → w.length = 36)) := by
  have hre : 0 < pattern.length := by
    rcases hpat with h | h
    · rw [h, sessionKeyRegex_length]; omega
    · rw [h, uuidRegex_length]; omega
  have hplus : plusOnlyLast pattern = true := by
    rcases hpat with h | h
    · rw [h]; exact sessionKeyRegex_plusOnlyLast
    · rw [h]; exact uuidRegex_plusOnlyLast
  obtain ⟨hiff, _⟩ := findString_spec pattern hre s
  rw [getCookieValue_of_decrypted P db cookieName pw enc s pattern hq hd]
  refine ⟨⟨?_, ?_⟩, ?_⟩
  · intro h
    by_cases hf : FindString pattern s = []
    · exact hiff.1 hf
    · rw [if_neg hf] at h
      exact absurd h (by simp)
  · intro hno
    rw [if_pos (hiff.2 hno)]
  · intro hex
    obtain ⟨pre, post, hs, hne, hm, hmin, hlong⟩ := findString_first pattern hre hplus s hex
    generalize FindString pattern s = w at hs hne hm hlong ⊢
    refine ⟨pre, w, post, by rw [if_neg hne], hs, hne, hm, hmin, hlong, ?_, ?_, ?_⟩
    · intro pre2 w2 post2 hs2 hm2 hl hw
      have hl2 : pre2.length = pre.length := Nat.le_antisymm hl (hmin pre2 w2 post2 hs2 hm2)
      have hw2 : w2.length = w.length :=
        Nat.le_antisymm (hlong pre2 w2 post2 hs2 hm2 hl2) hw
      have heq : pre2 ++ (w2 ++ post2) = pre ++ (w ++ post) := by
        rw [← List.append_assoc, ← List.append_assoc, ← hs2, ← hs]
      obtain ⟨_, hrest⟩ := List.append_inj heq hl2
      exact (List.append_inj hrest hw2).1
    · intro hp b rest hpost
      cases hb : tokenClass.test b with
      | false => rfl
      | true =>
        have hm2 : Matches (literal "sk-ant-sid" ++ [Item.oneOrMore tokenClass]) w := by
          rw [hp] at hm
          exact hm
        have hext := matches_extend tokenClass b hb (literal "sk-ant-sid") w hm2
        have hext2 : Matches pattern (w ++ [b]) := by
          rw [hp]
          exact hext
        have hs3 : s = pre ++ (w ++ [b]) ++ rest := by
          rw [hs, hpost]
          simp
        have := hlong pre (w ++ [b]) rest hs3 hext2 rfl
        simp only [List.length_append, List.length_singleton] at this
        omega
    · intro hp
      rw [hp] at hm
      rw [matches_fixedWidth_length uuidRegex w uuidRegex_fixedWidth hm, uuidRegex_length]

/-- C4 at concrete inputs: the not-found condition for the session cookie and
the organization cookie of `sampleDB`, and the session cookie of `tokenDB`,
where text surrounds the token and the call returns the whole token. -/
theorem getCookieValue_pattern_witness :
    (getCookieValue toyPrimitives sampleDB "sessionKey" samplePassword sessionKeyRegex
        = .fail (.errorf ("pattern not found in decrypted " ++ "sessionKey")) ↔
      ¬ ∃ pre w post, sampleSessionPlain = pre ++ w ++ post ∧ Matches sessionKeyRegex w) ∧
    (getCookieValue toyPrimitives sampleDB "lastActiveOrg" samplePassword uuidRegex
        = .fail (.errorf ("pattern not found in decrypted " ++ "lastActiveOrg")) ↔
      ¬ ∃ pre w post, bytesOf "0123456a-89ab-cdef-0123-456789abcdef" = pre ++ w ++ post ∧
        Matches uuidRegex w) ∧
    (∃ pre w post,
      getCookieValue toyPrimitives tokenDB "sessionKey" samplePassword sessionKeyRegex
        = .value w ∧
      sampleTokenPlain = pre ++ w ++ post ∧ w ≠ [] ∧ Matches sessionKeyRegex w ∧
      (∀ pre2 w2 post2, sampleTokenPlain = pre2 ++ w2 ++ post2 → Matches sessionKeyRegex w2 →
        pre.length ≤ pre2.length) ∧
      (∀ pre2 w2 post2, sampleTokenPlain = pre2 ++ w2 ++ post2 → Matches sessionKeyRegex w2 →
        pre2.length = pre.length → w2.length ≤ w.length) ∧
      (∀ pre2 w2 post2, sampleTokenPlain = pre2 ++ w2 ++ post2 → Matches sessionKeyRegex w2 →
        pre2.length ≤ pre.length → w.length ≤ w2.length → w2 = w) ∧
      (sessionKeyRegex = sessionKeyRegex →
        ∀ b rest, post = b :: rest → tokenClass.test b = false) ∧
      (sessionKeyRegex = uuidRegex → w.length = 36)) ∧
    getCookieValue toyPrimitives tokenDB "sessionKey" samplePassword sessionKeyRegex
      = .value (bytesOf "sk-ant-sid01-abc_DEF") :=
  ⟨(getCookieValue_pattern toyPrimitives sampleDB "sessionKey" samplePassword
      (encryptChromiumCookie toyPrimitives sampleSessionPlain samplePassword)
      sampleSessionPlain sessionKeyRegex (Or.inl rfl) (by rfl) (by decide)).1,
   (getCookieValue_pattern toyPrimitives sampleDB "lastActiveOrg" samplePassword
      (encryptChromiumCookie toyPrimitives sampleOrgPlain samplePassword)
      (bytesOf "0123456a-89ab-cdef-0123-456789abcdef") uuidRegex (Or.inr rfl) (by rfl)
      (by decide)).1,
   (getCookieValue_pattern toyPrimitives tokenDB "sessionKey" samplePassword
      (encryptChromiumCookie toyPrimitives sampleTokenPlain samplePassword)
      sampleTokenPlain sessionKeyRegex (Or.inl rfl) (by rfl) (by decide)).2
      ⟨bytesOf "a=", bytesOf "sk-ant-sid01-abc_DEF", bytesOf "; b=sk-ant", by decide,
        Exists.elim (matchPrefix_sound sessionKeyRegex (bytesOf "sk-ant-sid01-abc_DEF")
          (bytesOf "sk-ant-sid01-abc_DEF") (by decide)) (fun _ h => h.2)⟩,
   by decide⟩

theorem GetCredentials_home_error (P : Primitives) (W : World) (st : KeychainState)
    (e : GoError) (hH : W.userHomeDir = .error e) :
    (GetCredentials P W st).1 = .fail (.wrapf "failed to get home directory" e) := by
  unfold GetCredentials
  rw [hH]

theorem GetCredentials_keychain_error (P : Primitives) (W : World) (st : KeychainState)
    (home : String) (e : GoError) (hH : W.userHomeDir = .ok home)
    (hK : (getKeychainPasswordCached W st).1.2 = some e) :
    (GetCredentials P W st).1 = .fail (.wrapf "failed to get keychain password" e) := by
  unfold GetCredentials
  rw [hH]
  simp only []
  rw [hK]

theorem GetCredentials_open_error (P : Primitives) (W : World) (st : KeychainState)
    (home : String) (e : GoError) (hH : W.userHomeDir = .ok home)
    (hK : (getKeychainPasswordCached W st).1.2 = none)
    (hO : W.sqlOpen (W.pathJoin [home, "Library", "Application Support", "Claude", "Cookies"]
      ++ "?mode=ro") = .error e) :
    (GetCredentials P W st).1 = .fail (.wrapf "failed to open cookies database" e) := by
  unfold GetCredentials
  rw [hH]
  simp only []
  rw [hK]
  simp only []
  rw [hO]

theorem GetCredentials_session_fail (P : Primitives) (W : World) (st : KeychainState)
    (home : String) (db : DB) (e : GoError) (hH : W.userHomeDir = .ok home)
    (hK : (getKeychainPasswordCached W st).1.2 = none)
    (hO : W.sqlOpen (W.pathJoin [home, "Library", "Application Support", "Claude", "Cookies"]
      ++ "?mode=ro") = .ok db)
    (hS : getCookieValue P db "sessionKey" (getKeychainPasswordCached W st).1.1
      sessionKeyRegex = .fail e) :
    (GetCredentials P W st).1 = .fail (.wrapf "failed to get session key" e) := by
  unfold GetCredentials
  rw [hH]
  simp only []
  rw [hK]
  simp only []
  rw [hO]
  simp only []
  rw [hS]

theorem GetCredentials_org_fail (P : Primitives) (W : World) (st : KeychainState)
    (home : String) (db : DB) (sk : List Byte) (e : GoError) (hH : W.userHomeDir = .ok home)
    (hK : (getKeychainPasswordCached W st).1.2 = none)
    (hO : W.sqlOpen (W.pathJoin [home, "Library", "Application Support", "Claude", "Cookies"]
      ++ "?mode=ro") = .ok db)
    (hS : getCookieValue P db "sessionKey" (getKeychainPasswordCached W st).1.1
      sessionKeyRegex = .value sk)
    (hG : getCookieValue P db "lastActiveOrg" (getKeychainPasswordCached W st).1.1
      uuidRegex = .fail e) :
    (GetCredentials P W st).1 = .fail (.wrapf "failed to get org ID" e) := by
  unfold GetCredentials
  rw [hH]
  simp only []
  rw [hK]
  simp only []
  rw [hO]
  simp only []
  rw [hS]
  simp only []
  rw [hG]

theorem GetCredentials_success (P : Primitives) (W : World) (st : KeychainState)
    (home : String) (db : DB) (sk org : List Byte) (hH : W.userHomeDir = .ok home)
    (hK : (getKeychainPasswordCached W st).1.2 = none)
    (hO : W.sqlOpen (W.pathJoin [home, "Library", "Application Support", "Claude", "Cookies"]
      ++ "?mode=ro") = .ok db)
    (hS : getCookieValue P db "sessionKey" (getKeychainPasswordCached W st).1.1
      sessionKeyRegex = .value sk)
    (hG : getCookieValue P db "lastActiveOrg" (getKeychainPasswordCached W st).1.1
      uuidRegex = .value org) :
    (GetCredentials P W st).1 = .value { SessionKey := sk, OrgID := org } := by
  unfold GetCredentials
  rw [hH]
  simp only []
  rw [hK]
  simp only []
  rw [hO]
  simp only []
  rw [hS]
  simp only []
  rw [hG]

/-- Either every step succeeds and `GetCredentials` returns both values, or a
first step fails and `GetCredentials` returns its wrapped error. -/
theorem GetCredentials_cases (P : Primitives) (W : World) (st : KeychainState) :
    (∃ sk org, AllStepsSucceed P W st sk org ∧
      (GetCredentials P W st).1 = .value { SessionKey := sk, OrgID := org }) ∨
    (∃ step inner, FirstFailure P W st step inner ∧
      (GetCredentials P W st).1 = .fail (.wrapf step inner)) := by
  cases hH : W.userHomeDir with
  | error e =>
    right
    exact ⟨_, e, Or.inl ⟨rfl, hH⟩, GetCredentials_home_error P W st e hH⟩
  | ok home =>
    cases hK : (getKeychainPasswordCached W st).1.2 with
    | some e =>
      right
      exact ⟨_, e, Or.inr (Or.inl ⟨rfl, ⟨home, hH⟩, hK⟩),
        GetCredentials_keychain_error P W st home e hH hK⟩
    | none =>
      cases hO : W.sqlOpen (W.pathJoin
          [home, "Library", "Application Support", "Claude", "Cookies"] ++ "?mode=ro") with
      | error e =>
        right
        exact ⟨_, e, Or.inr (Or.inr (Or.inl ⟨rfl, home, hH, hK, hO⟩)),
          GetCredentials_open_error P W st home e hH hK hO⟩
      | ok db =>
        rcases getCookieValue_value_or_fail P db "sessionKey"
          (getKeychainPasswordCached W st).1.1 sessionKeyRegex with ⟨sk, hS⟩ | ⟨e, hS⟩
        · rcases getCookieValue_value_or_fail P db "lastActiveOrg"
            (getKeychainPasswordCached W st).1.1 uuidRegex with ⟨org, hG⟩ | ⟨e, hG⟩
          · left
            exact ⟨sk, org, ⟨home, db, hH, hK, hO, hS, hG⟩,
              GetCredentials_success P W st home db sk org hH hK hO hS hG⟩
          · right
            exact ⟨_, e, Or.inr (Or.inr (Or.inr (Or.inr ⟨rfl, home, db, sk, hH, hK, hO, hS, hG⟩))),
              GetCredentials_org_fail P W st home db sk e hH hK hO hS hG⟩
        · right
          exact ⟨_, e, Or.inr (Or.inr (Or.inr (Or.inl ⟨rfl, home, db, hH, hK, hO, hS⟩))),
            GetCredentials_session_fail P W st home db e hH hK hO hS⟩

/-- C5. `GetCredentials` is all-or-nothing. It returns a `Credentials` value
exactly when every step succeeds (home directory, keychain passphrase,
database open, session-key cookie, organization cookie); the value then holds
the two results, each a non-empty match of its pattern. Otherwise it returns
no `Credentials` and an error that wraps the error of the first failing step
under the message naming that step. -/
theorem GetCredentials_all_or_nothing (P : Primitives) (W : World) (st : KeychainState) :
    (∀ c, (GetCredentials P W st).1 = .value c ↔ AllStepsSucceed P W st c.SessionKey c.OrgID) ∧
    (∀ c, (GetCredentials P W st).1 = .value c →
      c.SessionKey ≠ [] ∧ Matches sessionKeyRegex c.SessionKey ∧
      c.OrgID ≠ [] ∧ Matches uuidRegex c.OrgID) ∧
    ((¬ ∃ sk org, AllStepsSucceed P W st sk org) →
      ∃ step inner, FirstFailure P W st step inner ∧
        (GetCredentials P W st).1 = .fail (.wrapf step inner)) := by
  have hsucc : ∀ sk org, AllStepsSucceed P W st sk org →
      (GetCredentials P W st).1 = .value { SessionKey := sk, OrgID := org } := by
    rintro sk org ⟨home, db, hH, hK, hO, hS, hG⟩
    exact GetCredentials_success P W st home db sk org hH hK hO hS hG
  have hval : ∀ c, (GetCredentials P W st).1 = .value c →
      AllStepsSucceed P W st c.SessionKey c.OrgID := by
    intro c hc
    rcases GetCredentials_cases P W st with ⟨sk, org, hall, hres⟩ | ⟨step, inner, _, hres⟩
    · rw [hres] at hc
      simp only [Outcome.value.injEq] at hc
      rw [← hc]
      exact hall
    · rw [hres] at hc
      exact absurd hc (by simp)
  refine ⟨fun c => ⟨hval c, fun h => hsucc _ _ h⟩, ?_, ?_⟩
  · intro c hc
    obtain ⟨home, db, _, _, _, hS, hG⟩ := hval c hc
    have h1 := getCookieValue_value P db "sessionKey" _ _ sessionKeyRegex
      (by rw [sessionKeyRegex_length]; omega) hS
    have h2 := getCookieValue_value P db "lastActiveOrg" _ _ uuidRegex
      (by rw [uuidRegex_length]; omega) hG
    exact ⟨h1.1, h1.2, h2.1, h2.2⟩
  · intro hno
    rcases GetCredentials_cases P W st with ⟨sk, org, hall, _⟩ | h
    · exact absurd ⟨sk, org, hall⟩ hno
    · exact h

/-- C5 at concrete inputs: in `sampleWorld` both fields are matches of their
patterns; in `deniedWorld` the result is the wrapped error of a failing step. -/
theorem GetCredentials_all_or_nothing_witness :
    ((bytesOf "sk-ant-sid01-abc" ≠ [] ∧ Matches sessionKeyRegex (bytesOf "sk-ant-sid01-abc")) ∧
      bytesOf "0123456a-89ab-cdef-0123-456789abcdef" ≠ [] ∧
      Matches uuidRegex (bytesOf "0123456a-89ab-cdef-0123-456789abcdef")) ∧
    ∃ step inner, FirstFailure toyPrimitives deniedWorld KeychainState.init step inner ∧
      (GetCredentials toyPrimitives deniedWorld KeychainState.init).1
        = .fail (.wrapf step inner) :=
  ⟨by
    have h := (GetCredentials_all_or_nothing toyPrimitives sampleWorld KeychainState.init).2.1
      { SessionKey := bytesOf "sk-ant-sid01-abc",
        OrgID := bytesOf "0123456a-89ab-cdef-0123-456789abcdef" } (by decide)
    exact ⟨⟨h.1, h.2.1⟩, h.2.2⟩,
   (GetCredentials_all_or_nothing toyPrimitives deniedWorld KeychainState.init).2.2 (by
    rintro ⟨sk, org, home, db, _, hK, _⟩
    exact absurd hK (by decide))⟩

/-! ## The keychain cache -/

theorem getKeychainPasswordCached_done (W : World) (st : KeychainState)
    (h : st.onceDone = true) :
    getKeychainPasswordCached W st = ((st.keychainCache, st.keychainCacheErr), st) := by
  simp [getKeychainPasswordCached, h]

theorem getKeychainPasswordCached_sets_done (W : World) (st : KeychainState) :
    (getKeychainPasswordCached W st).2.onceDone = true := by
  unfold getKeychainPasswordCached
  by_cases h : st.onceDone = true
  · simp [h]
  · cases hc : W.securityCmd st.runs <;> simp [h, hc]

theorem getKeychainPasswordCached_result (W : World) (st : KeychainState) :
    (getKeychainPasswordCached W st).1
      = ((getKeychainPasswordCached W st).2.keychainCache,
         (getKeychainPasswordCached W st).2.keychainCacheErr) := rfl

theorem keychainCalls_done (W : World) : ∀ (n : Nat) (st : KeychainState),
    st.onceDone = true →
    keychainCalls W n st = (List.replicate n (st.keychainCache, st.keychainCacheErr), st)
  | 0, _, _ => rfl
  | n + 1, st, h => by
    simp only [keychainCalls, getKeychainPasswordCached_done W st h,
      keychainCalls_done W n st h, List.replicate_succ]

/-- C6. From process start, over any number of calls of
`getKeychainPasswordCached`: the `security` command has run exactly once after
the first call and the package state never changes afterwards, so only the
first call runs it; every call returns the pair the first call returned; and
when the first run fails, every call returns that same wrapped error. -/
theorem getKeychainPasswordCached_once (W : World) (n : Nat) :
    (keychainCalls W 0 KeychainState.init).2.runs = 0 ∧
    (getKeychainPasswordCached W KeychainState.init).2.runs = 1 ∧
    (keychainCalls W (n + 1) KeychainState.init).2
      = (getKeychainPasswordCached W KeychainState.init).2 ∧
    (keychainCalls W (n + 1) KeychainState.init).1
      = List.replicate (n + 1) (getKeychainPasswordCached W KeychainState.init).1 ∧
    (∀ e, W.securityCmd 0 = .error e →
      (keychainCalls W (n + 1) KeychainState.init).1 = List.replicate (n + 1)
        ([], some (.wrapf
          "failed to get keychain password (click 'Always Allow' when prompted)" e))) ∧
    (∀ output, W.securityCmd 0 = .ok output →
      (keychainCalls W (n + 1) KeychainState.init).1
        = List.replicate (n + 1) (W.trimSpace output, none)) := by
  have hdone := getKeychainPasswordCached_sets_done W KeychainState.init
  have hcalls : keychainCalls W (n + 1) KeychainState.init
      = ((getKeychainPasswordCached W KeychainState.init).1 ::
          List.replicate n (getKeychainPasswordCached W KeychainState.init).1,
         (getKeychainPasswordCached W KeychainState.init).2) := by
    simp only [keychainCalls, keychainCalls_done W n _ hdone]
    rw [← getKeychainPasswordCached_result]
  have hruns : (getKeychainPasswordCached W KeychainState.init).2.runs = 1 := by
    unfold getKeychainPasswordCached
    cases hc : W.securityCmd KeychainState.init.runs <;> simp [KeychainState.init, hc]
  refine ⟨rfl, hruns, by rw [hcalls], by rw [hcalls, List.replicate_succ], ?_, ?_⟩
  · intro e he
    rw [hcalls, List.replicate_succ]
    have : (getKeychainPasswordCached W KeychainState.init).1 = ([], some (.wrapf
        "failed to get keychain password (click 'Always Allow' when prompted)" e)) := by
      simp [getKeychainPasswordCached, KeychainState.init, he]
    rw [this]
  · intro output ho
    rw [hcalls, List.replicate_succ]
    have : (getKeychainPasswordCached W KeychainState.init).1 = (W.trimSpace output, none) := by
      simp [getKeychainPasswordCached, KeychainState.init, ho]
    rw [this]


/-! ## Usage bars -/

/-- In the menu bar, for every utilization and every width the bar has
exactly `width` cells (none for a negative width), and the number of filled
cells among them is at most the width. -/
theorem Menubar.makeProgressBar_cells (percent : ℚ) (width : Int) :
    (Menubar.makeProgressBar percent width).length = width.toNat ∧
    (Menubar.makeProgressBar percent width).count '▰' ≤ width.toNat ∧
    ∀ c ∈ Menubar.makeProgressBar percent width, c = '▰' ∨ c = '▱' := by
  have hlen : (Menubar.makeProgressBar percent width).length = width.toNat := by
    simp only [Menubar.makeProgressBar, List.length_map, List.length_range]
  refine ⟨hlen, ?_, ?_⟩
  · have h := List.count_le_length '▰' (Menubar.makeProgressBar percent width)
    rw [hlen] at h
    exact h
  · intro c hc
    simp only [Menubar.makeProgressBar, List.mem_map] at hc
    obtain ⟨i, _, hi⟩ := hc
    split_ifs at hi
    · exact Or.inl hi.symm
    · exact Or.inr hi.symm

/-- C7, at the failing input. With a utilization of -50 the filled count of
`renderUsageRow` is -20, the call `strings.Repeat("█", -20)` panics, and so
does the `View` of a model holding that usage; the menu bar renders the same
utilization as five empty cells. -/
theorem Tui.renderUsageRow_negative_panics :
    Tui.filledCount (-50) = -20 ∧
    stringsRepeat ['█'] (-20) = none ∧
    Tui.Model.renderUsageRow sampleEnv "Current session" negativeLimit = none ∧
    Tui.Model.View sampleEnv negativeModel = none ∧
    Menubar.makeProgressBar (-50) 5 = ['▱', '▱', '▱', '▱', '▱'] := by
  have h1 : Tui.filledCount (-50) = -20 := by
    norm_num [Tui.filledCount, goInt]
  have h2 : Tui.Model.renderUsageRow sampleEnv "Current session" negativeLimit = none := by
    simp only [Tui.Model.renderUsageRow, negativeLimit, h1]
    rfl
  refine ⟨h1, rfl, h2, ?_, ?_⟩
  · simp only [Tui.Model.View, negativeModel, negativeUsage, Tui.Model.viewRow, h2]
  · have h3 : Menubar.filledCount (-50) 5 = -2 := by
      norm_num [Menubar.filledCount, goInt]
      decide
    simp only [Menubar.makeProgressBar, h3]
    decide

/-! ## `Update` and `refreshUsage` -/

theorem Tui.viewRow_some (env : Tui.Env) (label : String) (limit : UsageLimit)
    (parts : List Tui.ViewPart) (h : Tui.Model.viewRow env label (some limit) = some parts) :
    ∃ r, Tui.Model.renderUsageRow env label limit = some r ∧ parts = [.row r] := by
  cases hr : Tui.Model.renderUsageRow env label limit with
  | none => simp [Tui.Model.viewRow, hr] at h
  | some r =>
    simp only [Tui.Model.viewRow, hr, Option.some.injEq] at h
    exact ⟨r, rfl, h.symm⟩

/-- What a view that renders contains: the error line when an error is set,
and a row for each present window of the usage. -/
theorem Tui.View_contains (env : Tui.Env) (m : Tui.Model) (parts : List Tui.ViewPart)
    (h : Tui.Model.View env m = some parts) :
    (∀ e, m.err = some e → Tui.ViewPart.error e ∈ parts) ∧
    (∀ u, m.usage = some u →
      (∀ limit, u.FiveHour = some limit → ∃ r,
        Tui.Model.renderUsageRow env "Current session" limit = some r ∧
          Tui.ViewPart.row r ∈ parts) ∧
      (∀ limit, u.SevenDay = some limit → ∃ r,
        Tui.Model.renderUsageRow env "All models" limit = some r ∧
          Tui.ViewPart.row r ∈ parts) ∧
      (∀ limit, u.SevenDaySonnet = some limit → ∃ r,
        Tui.Model.renderUsageRow env "Sonnet only" limit = some r ∧
          Tui.ViewPart.row r ∈ parts)) := by
  refine ⟨?_, ?_⟩
  · intro e he
    simp only [Tui.Model.View, he] at h
    split at h
    · exact absurd h (by simp)
    · simp only [Option.some.injEq] at h
      rw [← h]
      simp
  · intro u hu
    simp only [Tui.Model.View, hu] at h
    cases h1 : Tui.Model.viewRow env "Current session" u.FiveHour with
    | none => simp [h1] at h
    | some r1 =>
      cases h2 : Tui.Model.viewRow env "All models" u.SevenDay with
      | none => simp [h1, h2] at h
      | some r2 =>
        cases h3 : Tui.Model.viewRow env "Sonnet only" u.SevenDaySonnet with
        | none => simp [h1, h2, h3] at h
        | some r3 =>
          simp only [h1, h2, h3, Option.some.injEq] at h
          refine ⟨?_, ?_, ?_⟩
          · intro limit hl
            rw [hl] at h1
            obtain ⟨r, hr, hp⟩ := Tui.viewRow_some env _ limit r1 h1
            refine ⟨r, hr, ?_⟩
            rw [← h, hp]
            simp
          · intro limit hl
            rw [hl] at h2
            obtain ⟨r, hr, hp⟩ := Tui.viewRow_some env _ limit r2 h2
            refine ⟨r, hr, ?_⟩
            rw [← h, hp]
            simp
          · intro limit hl
            rw [hl] at h3
            obtain ⟨r, hr, hp⟩ := Tui.viewRow_some env _ limit r3 h3
            refine ⟨r, hr, ?_⟩
            rw [← h, hp]
            simp

/-- C8. A failed fetch keeps the last usage. `Update` on an error message `e`
changes only `err`, to `e`, and `loading`, to false: `usage` and `lastUpdated`
(and the other fields) are those of the model before; a view of the updated
model that renders holds the error line and a row for every present window of
the old usage. In the menu bar, `refreshUsage` on a `GetUsage` error leaves
the package variable `usage` unchanged. -/
theorem Tui.Update_err_keeps_usage (env : Tui.Env) (m : Tui.Model) (e : GoError) :
    (Tui.Model.Update env m (.err e)).1.usage = m.usage ∧
    (Tui.Model.Update env m (.err e)).1.lastUpdated = m.lastUpdated ∧
    (Tui.Model.Update env m (.err e)).1.err = some e ∧
    (Tui.Model.Update env m (.err e)).1.loading = false ∧
    (Tui.Model.Update env m (.err e)).1 = { m with err := some e, loading := false } ∧
    (∀ parts, Tui.Model.View env (Tui.Model.Update env m (.err e)).1 = some parts →
      Tui.ViewPart.error e ∈ parts ∧
      ∀ u, m.usage = some u →
        (∀ limit, u.FiveHour = some limit → ∃ r,
          Tui.Model.renderUsageRow env "Current session" limit = some r ∧
            Tui.ViewPart.row r ∈ parts) ∧
        (∀ limit, u.SevenDay = some limit → ∃ r,
          Tui.Model.renderUsageRow env "All models" limit = some r ∧
            Tui.ViewPart.row r ∈ parts) ∧
        (∀ limit, u.SevenDaySonnet = some limit → ∃ r,
          Tui.Model.renderUsageRow env "Sonnet only" limit = some r ∧
            Tui.ViewPart.row r ∈ parts)) ∧
    (∀ (F : Formats) (s : Menubar.State) (err : GoError),
      (Menubar.refreshUsage F (.error err) s).usage = s.usage) := by
  refine ⟨rfl, rfl, rfl, rfl, rfl, ?_, fun _ _ _ => rfl⟩
  intro parts hparts
  obtain ⟨herr, hrows⟩ := Tui.View_contains env _ parts hparts
  exact ⟨herr e rfl, fun u hu => hrows u hu⟩

/-- C9. Last completed wins. Delivering `usageMsg b` and then `usageMsg a`
through `Update` leaves `usage = a`, `loading = false`, `err = nil` and
`lastUpdated` the time of the second delivery, every other field being that of
the model before: the final model is the old one with these four fields
replaced, whatever `b` was. In the menu bar two successful `refreshUsage`
calls completing in the order `b`, `a` leave `usage = a`. -/
theorem Tui.Update_last_completed_wins (env1 env2 : Tui.Env) (m : Tui.Model)
    (a b : Option UsageResponse) :
    (Tui.Model.Update env2 (Tui.Model.Update env1 m (.usage b)).1 (.usage a)).1.usage = a ∧
    (Tui.Model.Update env2 (Tui.Model.Update env1 m (.usage b)).1 (.usage a)).1.loading
      = false ∧
    (Tui.Model.Update env2 (Tui.Model.Update env1 m (.usage b)).1 (.usage a)).1.err = none ∧
    (Tui.Model.Update env2 (Tui.Model.Update env1 m (.usage b)).1 (.usage a)).1
      = { m with usage := a, lastUpdated := env2.now, loading := false, err := none } ∧
    (Tui.Model.Update env2 (Tui.Model.Update env1 m (.usage b)).1 (.usage a)).1
      = (Tui.Model.Update env2 m (.usage a)).1 ∧
    (∀ (F : Formats) (s : Menubar.State) (ua ub : UsageResponse),
      (Menubar.refreshUsage F (.ok ua) (Menubar.refreshUsage F (.ok ub) s)).usage = some ua) := by
  refine ⟨rfl, rfl, rfl, rfl, rfl, ?_⟩
  intro F s ua ub
  simp only [Menubar.refreshUsage, Menubar.updateMenuBar]
  cases ua.FiveHour <;> rfl

/-! ## `formatResetTime` -/

theorem timeSub_neg (now t : Int) (h : t < now) : timeSub t now < 0 := by
  simp only [timeSub, minDuration, maxDuration]
  split_ifs <;> omega

theorem timeSub_nonneg (now t : Int) (h : now ≤ t) : 0 ≤ timeSub t now := by
  simp only [timeSub, minDuration, maxDuration]
  split_ifs <;> omega

theorem Menubar.menubar_formatResetTime_label (F : Formats) (now t : Int) :
    Menubar.formatResetTime F now t = Menubar.renderLabel F (resetLabel now t) := by
  simp only [Menubar.formatResetTime, resetLabel]
  split_ifs <;> rfl

theorem Tui.tui_formatResetTime_label (F : Formats) (now t : Int) :
    Tui.formatResetTime F now t = Tui.renderLabel F (resetLabel now t) := by
  simp only [Tui.formatResetTime, resetLabel]
  split_ifs <;> rfl

theorem wholeMinutes_bounds (d : Int) (h : 0 ≤ d) :
    0 ≤ wholeMinutes d ∧ (d < Hour → wholeMinutes d < 60) ∧
    0 ≤ Int.tmod (wholeMinutes d) 60 ∧ Int.tmod (wholeMinutes d) 60 < 60 := by
  have hm : wholeMinutes d = d / 60000000000 := by
    simp only [wholeMinutes, Minute, Second]
    rw [Int.tdiv_eq_ediv h (by norm_num)]
    norm_num
  have h0 : 0 ≤ wholeMinutes d := by rw [hm]; omega
  refine ⟨h0, ?_, Int.tmod_nonneg 60 h0, Int.tmod_lt_of_pos _ (by norm_num)⟩
  intro hd
  simp only [Hour, Minute, Second] at hd
  rw [hm]
  omega

theorem wholeHours_bounds (d : Int) (h : 0 ≤ d) :
    0 ≤ wholeHours d ∧ (d < 24 * Hour → wholeHours d < 24) := by
  have hh : wholeHours d = d / 3600000000000 := by
    simp only [wholeHours, Hour, Minute, Second]
    rw [Int.tdiv_eq_ediv h (by norm_num)]
    norm_num
  refine ⟨by rw [hh]; omega, ?_⟩
  intro hd
  simp only [Hour, Minute, Second] at hd
  rw [hh]
  omega

/-- C10. With the current time `now` as a parameter: for a reset time before
`now`, `formatResetTime` returns the immediate label, `"now"` in the menu bar
and `"Resetting..."` in the terminal interface; for a reset time at or after
`now` it prints a label other than the immediate one, every integer it prints
is non-negative, the minutes printed alone are below 60, and the minutes
printed after the hours lie in 1..59 with the hours below 24. -/
theorem formatResetTime_no_negative_duration (F : Formats) (now t : Int) :
    (t < now →
      Menubar.formatResetTime F now t = "now" ∧
      Tui.formatResetTime F now t = "Resetting...") ∧
    (now ≤ t →
      Menubar.formatResetTime F now t = Menubar.renderLabel F (resetLabel now t) ∧
      Tui.formatResetTime F now t = Tui.renderLabel F (resetLabel now t) ∧
      resetLabel now t ≠ .immediate ∧
      (∀ k ∈ (resetLabel now t).numbers, 0 ≤ k) ∧
      (∀ m, resetLabel now t = .minutes m → m < 60) ∧
      (∀ h m, resetLabel now t = .hoursMinutes h m → h < 24 ∧ 1 ≤ m ∧ m ≤ 59) ∧
      (∀ h, resetLabel now t = .hours h → h < 24)) := by
  refine ⟨?_, ?_⟩
  · intro h
    have hneg := timeSub_neg now t h
    simp only [Menubar.formatResetTime, Tui.formatResetTime, if_pos hneg, and_self]
  · intro h
    have hd := timeSub_nonneg now t h
    obtain ⟨hm0, hm60, hr0, hr60⟩ := wholeMinutes_bounds _ hd
    obtain ⟨hh0, hh24⟩ := wholeHours_bounds _ hd
    refine ⟨Menubar.menubar_formatResetTime_label F now t, Tui.tui_formatResetTime_label F now t, ?_, ?_, ?_, ?_, ?_⟩
    · simp only [resetLabel]
      split_ifs with h1 <;> first
        | exact absurd hd (not_le.2 h1)
        | simp
    · intro k hk
      simp only [resetLabel] at hk
      split_ifs at hk <;> simp only [ResetLabel.numbers, List.mem_cons, List.mem_singleton,
        List.not_mem_nil, or_false] at hk
      · omega
      · rcases hk with hk | hk <;> omega
      · omega
    · intro m hm
      simp only [resetLabel] at hm
      split_ifs at hm with h1 h2 h3 h4
      · simp only [ResetLabel.minutes.injEq] at hm
        have := hm60 h2
        omega
    · intro hh m hm
      simp only [resetLabel] at hm
      split_ifs at hm with h1 h2 h3 h4
      · simp only [ResetLabel.hoursMinutes.injEq] at hm
        have := hh24 h3
        omega
    · intro hh hm
      simp only [resetLabel] at hm
      split_ifs at hm with h1 h2 h3 h4
      · simp only [ResetLabel.hours.injEq] at hm
        have := hh24 h3
        omega

/-- C10 at concrete inputs: a reset one second in the past, and a reset ninety
minutes ahead. -/
theorem formatResetTime_no_negative_duration_witness :
    (Menubar.formatResetTime sampleFormats 5000000000 4000000000 = "now" ∧
      Tui.formatResetTime sampleFormats 5000000000 4000000000 = "Resetting...") ∧
    (∀ k ∈ (resetLabel 0 5400000000000).numbers, 0 ≤ k) :=
  ⟨(formatResetTime_no_negative_duration sampleFormats 5000000000 4000000000).1 (by decide),
   ((formatResetTime_no_negative_duration sampleFormats 0 5400000000000).2 (by decide)).2.2.2.1⟩


end Jean
